import Mathlib

/-! rosneuro_filters_laplacian : the Laplacian spatial filter

A shallow embedding of `include/rosneuro_filters_laplacian/Laplacian.hpp`.

* `DynamicMatrix α` stands for the Eigen matrix `DynamicMatrix<T>`: a row count, a column
  count and the coefficients.  The coefficient access `m(i, j)` of Eigen requires
  `0 <= i < rows()` and `0 <= j < cols()` (an assertion of the library, undefined behaviour
  when assertions are compiled out); an access outside the matrix is the failure
  `Failure.indexOutOfRange`.  In the same way the product requires matching sizes and
  `maxCoeff` a matrix with coefficients.
* `int` and `unsigned int` values are integers and natural numbers; the conversions between
  them that the code performs are `toUnsigned` and `unsignedPred`.
* The scalar type `T` of the mask and of the samples is taken to be `ℚ`.
* The object `Laplacian<T>` is the record `Laplacian`; a member function is a function from
  the object before the call to the result of the call paired with the object after it.
* `std::string` is a list of characters.
-/

namespace rosneuro

/-- The ways in which a call can stop without returning a value. -/
inductive Failure where
  /-- `std::runtime_error` thrown by `apply` ("Laplacian mask is not set") -/
  | maskNotSet
  /-- coefficient access `m(i, j)` with `i` or `j` outside the matrix -/
  | indexOutOfRange
  /-- matrix product whose inner dimensions differ -/
  | sizeMismatch
  /-- `std::out_of_range` thrown by `std::vector::at` -/
  | vectorAt
  /-- `maxCoeff` of a matrix without coefficients -/
  | emptyMatrix
  deriving DecidableEq, Repr

/-- The Eigen matrix `DynamicMatrix<T>`: `rows()`, `cols()` and the coefficients, which are
meaningful at `(i, j)` with `i < rows` and `j < cols` only. -/
structure DynamicMatrix (α : Type) where
  rows : Nat
  cols : Nat
  coeff : Nat → Nat → α

namespace DynamicMatrix

/-- `DynamicMatrix<T>::Zero(r, c)`. -/
def Zero {α : Type} [OfNat α 0] (r c : Nat) : DynamicMatrix α :=
  { rows := r, cols := c, coeff := fun _ _ => 0 }

/-- The default constructed matrix: no rows and no columns. -/
def empty {α : Type} [OfNat α 0] : DynamicMatrix α := Zero 0 0

/-- Reading `m(i, j)` with unsigned indices. -/
def read {α : Type} (m : DynamicMatrix α) (i j : Nat) : Except Failure α :=
  if i < m.rows ∧ j < m.cols then .ok (m.coeff i j) else .error .indexOutOfRange

/-- The matrix `m` after `m(i, j) = v`, for indices inside the matrix. -/
def update {α : Type} (m : DynamicMatrix α) (i j : Nat) (v : α) : DynamicMatrix α :=
  { m with coeff := fun a b => if a = i ∧ b = j then v else m.coeff a b }

/-- The assignment `m(i, j) = v` with signed indices. -/
def write {α : Type} (m : DynamicMatrix α) (i j : Int) (v : α) :
    Except Failure (DynamicMatrix α) :=
  if 0 ≤ i ∧ i < m.rows ∧ 0 ≤ j ∧ j < m.cols then .ok (m.update i.toNat j.toNat v)
  else .error .indexOutOfRange

/-- The product `a * b`. -/
def mul (a b : DynamicMatrix ℚ) : Except Failure (DynamicMatrix ℚ) :=
  if a.cols = b.rows then
    .ok { rows := a.rows, cols := b.cols,
          coeff := fun i j => ∑ k in Finset.range a.cols, a.coeff i k * b.coeff k j }
  else .error .sizeMismatch

/-- The coefficients of `m` as a list of rows. -/
def toLists {α : Type} (m : DynamicMatrix α) : List (List α) :=
  (List.range m.rows).map fun i => (List.range m.cols).map fun j => m.coeff i j

/-- The matrix whose rows are the given lists, all of them of the length of the first. -/
def ofLists {α : Type} [OfNat α 0] (l : List (List α)) : DynamicMatrix α :=
  { rows := l.length, cols := (l.headD []).length,
    coeff := fun i j => (l.getD i []).getD j 0 }

/-- `maxCoeff()`: the largest coefficient; the matrix must have one. -/
def maxCoeff (m : DynamicMatrix Int) : Except Failure Int :=
  if m.rows = 0 ∨ m.cols = 0 then .error .emptyMatrix
  else .ok ((m.toLists.flatten).foldl max (m.coeff 0 0))

end DynamicMatrix

/-- The data members of `Laplacian<T>`. -/
structure Laplacian where
  is_mask_set_ : Bool
  nchannels_ : Nat
  layout_ : DynamicMatrix Int
  mask_ : DynamicMatrix ℚ

/-- What a member function leaves behind: its result, or the failure that stopped it, and
the object after the call. -/
abbrev Outcome (β : Type) : Type := Except Failure β × Laplacian

/-- The conversion of an `int` to `unsigned int`. -/
def toUnsigned (x : Int) : Int := if x < 0 then x + 4294967296 else x

/-- The value of `n - 1` computed in `unsigned int`. -/
def unsignedPred (n : Nat) : Nat := if n = 0 then 4294967295 else n - 1

/-- `std::isspace` in the classic locale: space, `\t`, `\n`, `\v`, `\f`, `\r`. -/
def isSpace (c : Char) : Bool :=
  c.toNat = 32 || (9 ≤ c.toNat && c.toNat ≤ 13)

/-- A decimal digit. -/
def isDigit (c : Char) : Bool := 48 ≤ c.toNat && c.toNat ≤ 57

/-- The regex class `[1-9]`. -/
def isDigit19 (c : Char) : Bool := 49 ≤ c.toNat && c.toNat ≤ 57

/-- The regex class `\w`: a letter, a digit or the underscore. -/
def isWordChar (c : Char) : Bool :=
  (48 ≤ c.toNat && c.toNat ≤ 57) || (65 ≤ c.toNat && c.toNat ≤ 90) ||
    (97 ≤ c.toNat && c.toNat ≤ 122) || c.toNat = 95

/-- The regex assertion `\b` at position `p` of `s`: exactly one of the characters before
and after the position is a word character. -/
def wordBoundary (s : List Char) (p : Nat) : Bool :=
  (p != 0 && (s.get? (p - 1)).any isWordChar) != (s.get? p).any isWordChar

/-- One round of `(?:\W+\1\b)` at position `q`, the `\W+` taking `w` characters and the
first group having captured `group`. -/
def matchRepeat (s group : List Char) (q w : Nat) : Bool :=
  decide (1 ≤ w) && decide (((s.drop q).take w).length = w) &&
    ((s.drop q).take w).all (fun c => !isWordChar c) &&
    decide ((s.drop (q + w)).take group.length = group) &&
    wordBoundary s (q + w + group.length)

/-- A match of `\b([1-9]+)(?:\W+\1\b)+` that starts at position `p` and whose first group
has `len` characters.  The rounds after the first one of the final `+` are optional, so
there is a match as soon as one round matches. -/
def matchAt (s : List Char) (p len : Nat) : Bool :=
  wordBoundary s p && decide (1 ≤ len) && decide (((s.drop p).take len).length = len) &&
    ((s.drop p).take len).all isDigit19 &&
    (List.range (s.length + 1)).any fun w => matchRepeat s ((s.drop p).take len) (p + len) w

/-- `std::getline(ss, srow, delim)`: the characters up to the delimiter, which is removed
from the stream, and the rest of the stream; `none` when the stream is exhausted. -/
def getline (ss : List Char) (delim : Char) : Option (List Char × List Char) :=
  if ss = [] then none
  else some (ss.takeWhile (fun c => c != delim), (ss.dropWhile (fun c => c != delim)).drop 1)

/-- The rows read by `while(getline(ss, srow, ';'))`, in at most `fuel` rounds. -/
def getlines : Nat → List Char → List (List Char)
  | 0, _ => []
  | fuel + 1, ss =>
    match getline ss ';' with
    | some (srow, rest) => srow :: getlines fuel rest
    | none => []

/-- The value of a string of decimal digits. -/
def digitsValue (digits : List Char) : Int :=
  digits.foldl (fun acc c => 10 * acc + ((c.toNat : Int) - 48)) 0

/-- The extraction `iss >> index` of an `int`: white space is skipped, then an optional sign
and the longest run of digits are read.  It fails (`none`) when there is no digit or when
the value does not fit an `int`; otherwise it gives the value and the rest of the stream. -/
def extract_int (iss : List Char) : Option (Int × List Char) :=
  let s1 := iss.dropWhile isSpace
  let negative := decide (s1.head? = some (Char.ofNat 45))
  let s2 := if s1.head? = some (Char.ofNat 45) ∨ s1.head? = some (Char.ofNat 43) then s1.tail else s1
  let digits := s2.takeWhile isDigit
  if digits = [] then none
  else
    let value := if negative then - digitsValue digits else digitsValue digits
    if -2147483648 ≤ value ∧ value ≤ 2147483647 then some (value, s2.dropWhile isDigit)
    else none

/-- The row read by `while(iss >> index) vrow.push_back(index)`, in at most `fuel`
rounds. -/
def read_row : Nat → List Char → List Int
  | 0, _ => []
  | fuel + 1, iss =>
    match extract_int iss with
    | some (index, rest) => index :: read_row fuel rest
    | none => []

namespace Laplacian

/-- The constructor `Laplacian<T>::Laplacian`: the flag is set, both matrices are empty and
`nchannels_` is not initialised (`nchannels0` is whatever it holds). -/
def construct (nchannels0 : Nat) : Laplacian :=
  { is_mask_set_ := true, nchannels_ := nchannels0,
    layout_ := DynamicMatrix.empty, mask_ := DynamicMatrix.empty }

/-- The inner loop of `find_channel` on row `i`: the first column `j` with
`layout_(i, j) == channel`, the comparison being made in `unsigned int`. -/
def find_channel_row (s : Laplacian) (channel : Nat) (i : Nat) : Option Nat :=
  (List.range s.layout_.cols).find? fun j =>
    decide (toUnsigned (s.layout_.coeff i j) = (channel : Int))

/-- `Laplacian<T>::find_channel`: `some (rId, cId)` when it returns `true`, `none` when it
returns `false`.  The `break` leaves the inner loop only, so a later row overwrites the
cell found in an earlier one. -/
def find_channel (s : Laplacian) (channel : Nat) : Option (Nat × Nat) :=
  (List.range s.layout_.rows).foldl
    (fun found i =>
      match find_channel_row s channel i with
      | some j => some (i, j)
      | none => found)
    none

/-- One of the four blocks of `get_neighbours`: under the guard, the cell `(i, j)` is
read and pushed when it is not `0`. -/
def push_neighbour (s : Laplacian) (guard : Bool) (i j : Nat) (neighbours : List Int) :
    Except Failure (List Int) :=
  if guard then
    match s.layout_.read i j with
    | .ok v => .ok (if v ≠ 0 then neighbours ++ [v] else neighbours)
    | .error e => .error e
  else .ok neighbours

/-- `Laplacian<T>::get_neighbours`: left, right, up, down. -/
def get_neighbours (s : Laplacian) (rId cId : Nat) : Except Failure (List Int) := do
  let n1 ← push_neighbour s (decide (cId > 0)) rId (cId - 1) []
  let n2 ← push_neighbour s (decide (cId < unsignedPred s.layout_.cols)) rId (cId + 1) n1
  let n3 ← push_neighbour s (decide (rId > 0)) (rId - 1) cId n2
  push_neighbour s (decide (rId < unsignedPred s.layout_.rows)) (rId + 1) cId n3

/-- The assignment `this->mask_(i, j) = v`. -/
def assign_mask (s : Laplacian) (i j : Int) (v : ℚ) : Outcome Unit :=
  match s.mask_.write i j v with
  | .ok m => (.ok (), { s with mask_ := m })
  | .error e => (.error e, s)

/-- The loop of `create_mask` over the neighbours of channel `chIdx`. -/
def write_neighbours (chIdx : Nat) (size : Nat) : List Int → Laplacian → Outcome Unit
  | [], s => (.ok (), s)
  | it :: rest, s =>
    match assign_mask s (it - 1) ((chIdx : Int) - 1) (-1 / (size : ℚ)) with
    | (.ok _, s1) => write_neighbours chIdx size rest s1
    | (.error e, s1) => (.error e, s1)

/-- The body of the loop of `create_mask` for the channel `chIdx`. -/
def create_mask_body (s : Laplacian) (chIdx : Nat) : Outcome Unit :=
  match find_channel s chIdx with
  | some (crowId, ccolId) =>
    match get_neighbours s crowId ccolId with
    | .ok neighbours =>
      match assign_mask s ((chIdx : Int) - 1) ((chIdx : Int) - 1) 1 with
      | (.ok _, s1) => write_neighbours chIdx neighbours.length neighbours s1
      | (.error e, s1) => (.error e, s1)
    | .error e => (.error e, s)
  | none => (.ok (), s)

/-- The loop of `create_mask` over the channels still to be treated. -/
def create_mask_loop : List Nat → Laplacian → Outcome Unit
  | [], s => (.ok (), s)
  | chIdx :: rest, s =>
    match create_mask_body s chIdx with
    | (.ok _, s1) => create_mask_loop rest s1
    | (.error e, s1) => (.error e, s1)

/-- `Laplacian<T>::create_mask`. -/
def create_mask (s : Laplacian) : Outcome Bool :=
  let s0 := { s with mask_ := DynamicMatrix.Zero s.nchannels_ s.nchannels_ }
  match create_mask_loop (List.range' 1 s.nchannels_) s0 with
  | (.ok _, s1) => (.ok true, s1)
  | (.error e, s1) => (.error e, s1)

/-- `Laplacian<T>::has_duplicate`: whether the regex `\b([1-9]+)(?:\W+\1\b)+` has a match
somewhere in the text. -/
def has_duplicate (slayout : List Char) : Bool :=
  (List.range (slayout.length + 1)).any fun p =>
    (List.range (slayout.length + 1)).any fun len => matchAt slayout p len

/-- `Laplacian<T>::load_layout`. -/
def load_layout (s : Laplacian) (slayout : List Char) : Outcome Bool :=
  let vlayout := (getlines slayout.length slayout).map fun srow => read_row srow.length srow
  match vlayout with
  | [] => (.error .vectorAt, s)
  | vrow0 :: _ =>
    if vlayout.any (fun vrow => vrow.length != vrow0.length) then (.ok false, s)
    else (.ok true, { s with layout_ := DynamicMatrix.ofLists vlayout })

/-- `Laplacian<T>::set_layout(const std::string&, int)`. -/
def set_layout_string (s : Laplacian) (layout : List Char) (nchannels : Int) :
    Outcome Bool :=
  let s0 := { s with nchannels_ := (toUnsigned nchannels).toNat, is_mask_set_ := false }
  if has_duplicate layout then (.ok false, s0)
  else
    match load_layout s0 layout with
    | (.ok true, s1) =>
      match create_mask s1 with
      | (.ok true, s2) => (.ok true, { s2 with is_mask_set_ := true })
      | (.ok false, s2) => (.ok false, s2)
      | (.error e, s2) => (.error e, s2)
    | (.ok false, s1) => (.ok false, s1)
    | (.error e, s1) => (.error e, s1)

/-- `Laplacian<T>::configure`.  The parameters `layout` and `nchannels` that
`Filter<T>::getParam` looks up are the arguments `layoutParam` and `nchannelsParam`, `none`
standing for a parameter that is not there. -/
def configure (s : Laplacian) (layoutParam : Option (List Char))
    (nchannelsParam : Option Nat) : Outcome Bool :=
  match layoutParam with
  | none => (.ok false, s)
  | some layout_str =>
    if has_duplicate layout_str then (.ok false, s)
    else
      match load_layout s layout_str with
      | (.ok true, s1) =>
        let counted : Except Failure (Bool × Laplacian) :=
          match nchannelsParam with
          | some n => .ok (false, { s1 with nchannels_ := n })
          | none =>
            match s1.layout_.maxCoeff with
            | .ok m => .ok (true, { s1 with nchannels_ := (toUnsigned m).toNat })
            | .error e => .error e
        match counted with
        | .ok (retcod, s2) =>
          match create_mask s2 with
          | (.ok true, s3) => (.ok retcod, { s3 with is_mask_set_ := true })
          | (.ok false, s3) => (.ok false, s3)
          | (.error e, s3) => (.error e, s3)
        | .error e => (.error e, s1)
      | (.ok false, s1) => (.ok false, s1)
      | (.error e, s1) => (.error e, s1)

/-- `Laplacian<T>::set_layout(const DynamicMatrix<int>&, int)`. -/
def set_layout (s : Laplacian) (layout : DynamicMatrix Int) (nchannels : Int) :
    Outcome Bool :=
  let s0 := { s with layout_ := layout, nchannels_ := (toUnsigned nchannels).toNat,
                     is_mask_set_ := false }
  match create_mask s0 with
  | (.ok true, s1) => (.ok true, { s1 with is_mask_set_ := true })
  | (.ok false, s1) => (.ok false, s1)
  | (.error e, s1) => (.error e, s1)

/-- `Laplacian<T>::set_mask`. -/
def set_mask (s : Laplacian) (mask : DynamicMatrix ℚ) : Outcome Bool :=
  (.ok true, { s with mask_ := mask, is_mask_set_ := true })

/-- `Laplacian<T>::layout`. -/
def layout (s : Laplacian) : DynamicMatrix Int := s.layout_

/-- `Laplacian<T>::mask`. -/
def mask (s : Laplacian) : DynamicMatrix ℚ := s.mask_

/-- `Laplacian<T>::apply`. -/
def apply (s : Laplacian) (inp : DynamicMatrix ℚ) : Outcome (DynamicMatrix ℚ) :=
  if !s.is_mask_set_ then (.error .maskNotSet, s)
  else (inp.mul s.mask_, s)

/-! ### Auxiliary definitions used to state the properties -/

/-- The object `s` with the coefficients of its mask replaced by `f`. -/
def maskWith (s : Laplacian) (f : Nat → Nat → ℚ) : Laplacian :=
  { s with mask_ := { s.mask_ with coeff := f } }

/-- The cells that `get_neighbours` looks at around `(rId, cId)`, in the order of the four
blocks of the function. -/
def neighbourCells (s : Laplacian) (rId cId : Nat) : List (Nat × Nat) :=
  (if 0 < cId then [(rId, cId - 1)] else []) ++
  (if cId + 1 < s.layout_.cols then [(rId, cId + 1)] else []) ++
  (if 0 < rId then [(rId - 1, cId)] else []) ++
  (if rId + 1 < s.layout_.rows then [(rId + 1, cId)] else [])

/-- The coefficients `f` after the assignments of one round of the loop of `create_mask`,
for the channel `chIdx` with the neighbours `K`. -/
def colWrite (chIdx : Nat) (K : List Int) (f : Nat → Nat → ℚ) : Nat → Nat → ℚ :=
  fun i j =>
    if j + 1 = chIdx then
      if ((i : Int) + 1) ∈ K then -1 / (K.length : ℚ)
      else if i + 1 = chIdx then 1
      else f i j
    else f i j

/-- The coefficients `f` after the round of the loop of `create_mask` for `chIdx`. -/
def stepCoeff (s : Laplacian) (chIdx : Nat) (f : Nat → Nat → ℚ) : Nat → Nat → ℚ :=
  match find_channel s chIdx with
  | some (r, q) =>
    match get_neighbours s r q with
    | .ok K => colWrite chIdx K f
    | .error _ => f
  | none => f

/-- Every assignment of the round of `create_mask` for `chIdx` stays inside the mask. -/
def Writable (s : Laplacian) (chIdx : Nat) : Prop :=
  ∀ r q, find_channel s chIdx = some (r, q) →
    ∃ K, get_neighbours s r q = .ok K ∧ 1 ≤ chIdx ∧ chIdx ≤ s.mask_.rows ∧
      chIdx ≤ s.mask_.cols ∧ ∀ k ∈ K, 1 ≤ k ∧ k ≤ (s.mask_.rows : Int)

/-- The non-zero entries of the layout are pairwise distinct. -/
def DistinctChannels (L : DynamicMatrix Int) : Prop :=
  ∀ i j i2 j2, i < L.rows → j < L.cols → i2 < L.rows → j2 < L.cols →
    L.coeff i j ≠ 0 → L.coeff i j = L.coeff i2 j2 → i = i2 ∧ j = j2

/-- Every entry of the layout is `0` or a channel index in `1..N`. -/
def EntriesUpTo (L : DynamicMatrix Int) (N : Nat) : Prop :=
  ∀ i j, i < L.rows → j < L.cols → 0 ≤ L.coeff i j ∧ L.coeff i j ≤ (N : Int)

end Laplacian

/-- The value is an `int`. -/
def IsInt32 (x : Int) : Prop := -2147483648 ≤ x ∧ x ≤ 2147483647

/-- The layout `1 2 3; 4 5 6; 7 8 9` of the tests. -/
def layout3x3 : DynamicMatrix Int := DynamicMatrix.ofLists [[1, 2, 3], [4, 5, 6], [7, 8, 9]]

/-- The layout of the test `ApplyWithMaskSet`. -/
def layoutApplyTest : DynamicMatrix Int :=
  DynamicMatrix.ofLists [[1, 15, 30], [16, 31, 17], [32, 33, 34]]

/-- The samples of the tests `ApplyWithMaskSet` and `ApplyWithoutMaskSet`. -/
def samples3x3 : DynamicMatrix ℚ := DynamicMatrix.ofLists [[1, 2, 3], [4, 5, 6], [7, 8, 9]]

/-- The layout `1 2 3`: three channels in one row. -/
def layoutLine : DynamicMatrix Int := DynamicMatrix.ofLists [[1, 2, 3]]

/-- A layout with two channels next to each other. -/
def layoutPair : DynamicMatrix Int := DynamicMatrix.ofLists [[1, 2]]

/-- A layout that holds the channels `1` and `3` in cells that do not touch. -/
def layoutGap : DynamicMatrix Int := DynamicMatrix.ofLists [[1, 0], [0, 3]]

/-! ### Layout texts -/

/-- A decimal integer token: an optional minus sign followed by digits. -/
structure IntToken where
  negative : Bool
  digits : List Char
  deriving DecidableEq

/-- The characters of the token. -/
def IntToken.text (t : IntToken) : List Char :=
  (if t.negative then [Char.ofNat 45] else []) ++ t.digits

/-- The integer the token stands for. -/
def IntToken.value (t : IntToken) : Int :=
  if t.negative then - digitsValue t.digits else digitsValue t.digits

/-- The token has at least one digit, nothing but digits, and its value is an `int`. -/
def IntToken.WellFormed (t : IntToken) : Prop :=
  t.digits ≠ [] ∧ (∀ c ∈ t.digits, isDigit c = true) ∧ IsInt32 t.value

/-- A row of a layout text: the tokens, each with the white space in front of it, and the
white space after the last token. -/
structure LayoutRow where
  tokens : List (List Char × IntToken)
  trailing : List Char
  deriving DecidableEq

/-- The characters of a sequence of tokens with the white space in front of each. -/
def tokensText : List (List Char × IntToken) → List Char
  | [] => []
  | p :: ps => p.1 ++ p.2.text ++ tokensText ps

/-- The characters of the row. -/
def LayoutRow.text (r : LayoutRow) : List Char := tokensText r.tokens ++ r.trailing

/-- The integers of the row. -/
def LayoutRow.values (r : LayoutRow) : List Int := r.tokens.map fun p => p.2.value

/-- The row has at least one token, its tokens are well formed and separated by white space
(the first one may have none in front of it), and nothing but white space follows the last
token. -/
def LayoutRow.WellFormed (r : LayoutRow) : Prop :=
  r.tokens ≠ [] ∧
    (∀ p ∈ r.tokens, (∀ c ∈ p.1, isSpace c = true) ∧ p.2.WellFormed) ∧
    (∀ p ∈ r.tokens.tail, p.1 ≠ []) ∧
    (∀ c ∈ r.trailing, isSpace c = true)

/-- The rows joined by `;`. -/
def joinRows : List (List Char) → List Char
  | [] => []
  | [r] => r
  | r :: r2 :: rs => r ++ ';' :: joinRows (r2 :: rs)

instance (x : Int) : Decidable (IsInt32 x) :=
  inferInstanceAs (Decidable (-2147483648 ≤ x ∧ x ≤ 2147483647))

instance (t : IntToken) : Decidable t.WellFormed :=
  inferInstanceAs (Decidable (t.digits ≠ [] ∧ (∀ c ∈ t.digits, isDigit c = true) ∧
    IsInt32 t.value))

instance (r : LayoutRow) : Decidable r.WellFormed :=
  inferInstanceAs (Decidable (r.tokens ≠ [] ∧
    (∀ p ∈ r.tokens, (∀ c ∈ p.1, isSpace c = true) ∧ p.2.WellFormed) ∧
    (∀ p ∈ r.tokens.tail, p.1 ≠ []) ∧
    (∀ c ∈ r.trailing, isSpace c = true)))

/-- The token made of one digit, with the given white space in front of it. -/
def digitToken (ws : String) (d : Char) : List Char × IntToken :=
  (ws.toList, { negative := false, digits := [d] })

/-- The rows of the text `1 2 3; 4 5; 7 8 9` of the test `LoadLayoutInvalid`. -/
def raggedRows : List LayoutRow :=
  [ { tokens := [digitToken "" '1', digitToken " " '2', digitToken " " '3'], trailing := [] },
    { tokens := [digitToken " " '4', digitToken " " '5'], trailing := [] },
    { tokens := [digitToken " " '7', digitToken " " '8', digitToken " " '9'],
      trailing := [] } ]

/-! ### The neighbours of a cell, in the words of the specification -/

/-- The value of the cell `(i, j)` when it lies inside the grid and does not hold `0`. -/
def cellValue (L : DynamicMatrix Int) (i j : Int) : Option Int :=
  if 0 ≤ i ∧ i < L.rows ∧ 0 ≤ j ∧ j < L.cols ∧ L.coeff i.toNat j.toNat ≠ 0 then
    some (L.coeff i.toNat j.toNat)
  else none

/-- The values of the cells to the left, to the right, above and below `(r, c)`, in that
order, without the cells that lie outside the grid or hold `0`. -/
def neighbours_of (L : DynamicMatrix Int) (r c : Nat) : List Int :=
  [((r : Int), (c : Int) - 1), ((r : Int), (c : Int) + 1),
    ((r : Int) - 1, (c : Int)), ((r : Int) + 1, (c : Int))].filterMap
      fun p => cellValue L p.1 p.2

/-! ### The texts and the filter of the tests -/

/-- The text `1 2 3; 4 5 6; 7 8 9` of the tests `SetLayoutString` and `LoadLayoutValid`. -/
def validText : List Char := "1 2 3; 4 5 6; 7 8 9".toList

/-- The ragged text `1 2 3; 4 5; 7 8 9` of the tests. -/
def raggedText : List Char := "1 2 3; 4 5; 7 8 9".toList

/-- The text of the layout of the test `Configure`: seven rows of seven tokens. -/
def configureText : List Char :=
  (" 0   0   1   0   2   0   0;\n 0   0   0   0   0   0   0;\n" ++
   " 0   0  18   3  19   0   0;\n 4  20   5  21   6  22   7;\n" ++
   "23   8  24   9  25  10  26;\n11  27  12   0  13  28  14;\n" ++
   "29  15  30  16  31  17  32").toList

/-- A filter that is ready: the one `set_layout` leaves for the layout `1 2 3` with three
channels. -/
def readyFilter : Laplacian := (Laplacian.set_layout (Laplacian.construct 0) layoutLine 3).2

/-- A filter whose flag is cleared: the ready filter after `set_layout` has failed on the
ragged text. -/
def clearedFilter : Laplacian := (Laplacian.set_layout_string readyFilter raggedText 3).2

/-! ### Texts of unsigned tokens, for the duplicate check -/

/-- A character that separates the tokens of a layout text: white space or `;`. -/
def isSeparator (c : Char) : Bool := isSpace c || c == ';'

/-- The text `tokensText toks ++ trailing` is made of unsigned decimal tokens separated
(and possibly surrounded) by white space and `;`. -/
def SeparatedTokens (toks : List (List Char × IntToken)) (trailing : List Char) : Prop :=
  (∀ p ∈ toks, (∀ c ∈ p.1, isSeparator c = true) ∧ p.2.negative = false ∧
      p.2.digits ≠ [] ∧ ∀ c ∈ p.2.digits, isDigit c = true) ∧
    (∀ p ∈ toks.tail, p.1 ≠ []) ∧
    (∀ c ∈ trailing, isSeparator c = true)

/-- No positive value occurs more than once among the tokens. -/
def NoRepeatedChannel (toks : List (List Char × IntToken)) : Prop :=
  toks.Pairwise fun a b => a.2.value = b.2.value → a.2.value = 0

/-- The maximal runs of word characters of a text, `cur` being the run under way. -/
def wordsAux : List Char → List Char → List (List Char)
  | cur, [] => if cur = [] then [] else [cur]
  | cur, c :: cs =>
    if isWordChar c then wordsAux (cur ++ [c]) cs
    else if cur = [] then wordsAux [] cs
    else cur :: wordsAux [] cs

/-- The maximal runs of word characters of a text. -/
def wordsOf (s : List Char) : List (List Char) := wordsAux [] s

instance (toks : List (List Char × IntToken)) (trailing : List Char) :
    Decidable (SeparatedTokens toks trailing) :=
  inferInstanceAs (Decidable ((∀ p ∈ toks, (∀ c ∈ p.1, isSeparator c = true) ∧
      p.2.negative = false ∧ p.2.digits ≠ [] ∧ ∀ c ∈ p.2.digits, isDigit c = true) ∧
    (∀ p ∈ toks.tail, p.1 ≠ []) ∧
    (∀ c ∈ trailing, isSeparator c = true)))

instance (toks : List (List Char × IntToken)) : Decidable (NoRepeatedChannel toks) :=
  inferInstanceAs (Decidable (toks.Pairwise
    fun (a b : List Char × IntToken) => a.2.value = b.2.value → a.2.value = 0))

/-- The unsigned tokens of a text, each with the separators in front of it, and what is
left of the text behind the last token; at most `fuel` tokens are read. -/
def scanTokens : Nat → List Char → List (List Char × IntToken) × List Char
  | 0, s => ([], s)
  | fuel + 1, s =>
    if ((s.dropWhile isSeparator).takeWhile isDigit) = [] then ([], s)
    else
      ((s.takeWhile isSeparator,
          { negative := false, digits := (s.dropWhile isSeparator).takeWhile isDigit }) ::
        (scanTokens fuel ((s.dropWhile isSeparator).dropWhile isDigit)).1,
       (scanTokens fuel ((s.dropWhile isSeparator).dropWhile isDigit)).2)

/-- A grid that holds channel `1` in two cells, `(0, 0)` and `(1, 1)`. -/
def layoutTwice : DynamicMatrix Int := DynamicMatrix.ofLists [[1, 2], [3, 1]]

end rosneuro

/-! ## Properties -/

namespace rosneuro

namespace Laplacian

/-! ### `find_channel` -/

theorem find_channel_row_some {s : Laplacian} {channel i j : Nat}
    (h : find_channel_row s channel i = some j) :
    j < s.layout_.cols ∧ toUnsigned (s.layout_.coeff i j) = (channel : Int) := by
  unfold find_channel_row at h
  have h1 := List.find?_some h
  have h2 := List.mem_of_find?_eq_some h
  exact ⟨List.mem_range.mp h2, by simpa using h1⟩

theorem find_channel_row_isSome {s : Laplacian} {channel i j : Nat}
    (hj : j < s.layout_.cols)
    (h : toUnsigned (s.layout_.coeff i j) = (channel : Int)) :
    ∃ j2, find_channel_row s channel i = some j2 := by
  unfold find_channel_row
  cases hf : (List.range s.layout_.cols).find? fun j =>
      decide (toUnsigned (s.layout_.coeff i j) = (channel : Int)) with
  | some j2 => exact ⟨j2, rfl⟩
  | none =>
    rw [List.find?_eq_none] at hf
    have := hf j (List.mem_range.mpr hj)
    simp [h] at this

/-- The fold of `find_channel` over a list of rows. -/
theorem find_channel_fold_some (s : Laplacian) (channel : Nat) (rows : List Nat)
    (acc : Option (Nat × Nat)) (r q : Nat)
    (h : rows.foldl (fun found i =>
          match find_channel_row s channel i with
          | some j => some (i, j)
          | none => found) acc = some (r, q)) :
    acc = some (r, q) ∨ (r ∈ rows ∧ find_channel_row s channel r = some q) := by
  induction rows generalizing acc with
  | nil => left; simpa using h
  | cons i rest ih =>
    rw [List.foldl_cons] at h
    rcases ih _ h with h1 | ⟨h1, h2⟩
    · cases hrow : find_channel_row s channel i with
      | none => rw [hrow] at h1; left; exact h1
      | some j =>
        rw [hrow] at h1
        simp only [Option.some.injEq, Prod.mk.injEq] at h1
        right
        obtain ⟨rfl, rfl⟩ := h1
        exact ⟨List.mem_cons_self _ _, hrow⟩
    · right; exact ⟨List.mem_cons_of_mem _ h1, h2⟩

theorem find_channel_fold_isSome (s : Laplacian) (channel : Nat) (rows : List Nat)
    (acc : Option (Nat × Nat))
    (h : acc.isSome ∨ ∃ i ∈ rows, (find_channel_row s channel i).isSome) :
    (rows.foldl (fun found i =>
          match find_channel_row s channel i with
          | some j => some (i, j)
          | none => found) acc).isSome := by
  induction rows generalizing acc with
  | nil =>
    rcases h with h | ⟨i, hi, _⟩
    · simpa using h
    · simp at hi
  | cons i rest ih =>
    rw [List.foldl_cons]
    apply ih
    rcases h with h | ⟨i2, hi2, h2⟩
    · left
      cases hrow : find_channel_row s channel i with
      | none => simpa using h
      | some j => simp
    · rcases List.mem_cons.mp hi2 with rfl | hmem
      · left
        cases hrow : find_channel_row s channel i2 with
        | none => rw [hrow] at h2; simp at h2
        | some j => simp
      · right; exact ⟨i2, hmem, h2⟩

/-- What `find_channel` reports is a cell of the layout that holds the channel. -/
theorem find_channel_some {s : Laplacian} {channel r q : Nat}
    (h : find_channel s channel = some (r, q)) :
    r < s.layout_.rows ∧ q < s.layout_.cols ∧
      toUnsigned (s.layout_.coeff r q) = (channel : Int) := by
  unfold find_channel at h
  rcases find_channel_fold_some s channel _ none r q h with h1 | ⟨h1, h2⟩
  · simp at h1
  · have := find_channel_row_some h2
    exact ⟨List.mem_range.mp h1, this.1, this.2⟩

/-- A channel held by some cell of the layout is found. -/
theorem find_channel_isSome {s : Laplacian} {channel r q : Nat}
    (hr : r < s.layout_.rows) (hq : q < s.layout_.cols)
    (h : toUnsigned (s.layout_.coeff r q) = (channel : Int)) :
    ∃ r2 q2, find_channel s channel = some (r2, q2) := by
  have h1 : (find_channel s channel).isSome := by
    unfold find_channel
    apply find_channel_fold_isSome
    right
    obtain ⟨j2, hj2⟩ := find_channel_row_isSome hq h
    exact ⟨r, List.mem_range.mpr hr, by simp [hj2]⟩
  obtain ⟨⟨r2, q2⟩, h2⟩ := Option.isSome_iff_exists.mp h1
  exact ⟨r2, q2, h2⟩

/-- A channel held by no cell of the layout is not found. -/
theorem find_channel_none {s : Laplacian} {channel : Nat}
    (h : ∀ r q, r < s.layout_.rows → q < s.layout_.cols →
      toUnsigned (s.layout_.coeff r q) ≠ (channel : Int)) :
    find_channel s channel = none := by
  cases hf : find_channel s channel with
  | none => rfl
  | some p =>
    obtain ⟨r, q⟩ := p
    have := find_channel_some hf
    exact absurd this.2.2 (h r q this.1 this.2.1)

theorem find_channel_congr {s t : Laplacian} (h : s.layout_ = t.layout_) (channel : Nat) :
    find_channel s channel = find_channel t channel := by
  unfold find_channel find_channel_row
  rw [h]

theorem toUnsigned_of_nonneg {x : Int} (h : 0 ≤ x) : toUnsigned x = x := by
  unfold toUnsigned
  rw [if_neg (by omega)]

/-- In a layout with pairwise distinct non-negative entries, `find_channel` reports the
cell that holds the channel. -/
theorem find_channel_eq {s : Laplacian} {channel r q : Nat}
    (hd : DistinctChannels s.layout_)
    (hpos : ∀ i j, i < s.layout_.rows → j < s.layout_.cols → 0 ≤ s.layout_.coeff i j)
    (hc : 1 ≤ channel)
    (hr : r < s.layout_.rows) (hq : q < s.layout_.cols)
    (h : s.layout_.coeff r q = (channel : Int)) :
    find_channel s channel = some (r, q) := by
  obtain ⟨r2, q2, h2⟩ := find_channel_isSome hr hq
    (by rw [toUnsigned_of_nonneg (hpos r q hr hq)]; exact h)
  obtain ⟨hr2, hq2, hv⟩ := find_channel_some h2
  rw [toUnsigned_of_nonneg (hpos r2 q2 hr2 hq2)] at hv
  have := hd r q r2 q2 hr hq hr2 hq2 (by rw [h]; omega) (by rw [h, hv])
  rw [h2, this.1, this.2]

/-! ### `get_neighbours` -/

/-- The values of the non-empty cells among `cells`. -/
theorem push_neighbour_eq (s : Laplacian) (c : Prop) [Decidable c] (i j : Nat)
    (acc : List Int) (h : c → i < s.layout_.rows ∧ j < s.layout_.cols) :
    push_neighbour s (decide c) i j acc =
      .ok (acc ++ ((if c then [(i, j)] else []).map
        (fun p => s.layout_.coeff p.1 p.2)).filter (fun v => decide (v ≠ 0))) := by
  unfold push_neighbour
  by_cases hc : c
  · have hb := h hc
    simp only [hc, decide_True, if_true, DynamicMatrix.read, hb.1, hb.2, and_self,
      List.map_cons, List.map_nil]
    by_cases hv : s.layout_.coeff i j = 0
    · simp [hv]
    · simp [hv]
  · simp [hc]

/-- On a cell of the layout `get_neighbours` returns the non-zero values of the adjacent
cells, left, right, up, down. -/
theorem get_neighbours_eq (s : Laplacian) (r q : Nat)
    (hr : r < s.layout_.rows) (hq : q < s.layout_.cols) :
    get_neighbours s r q =
      .ok (((neighbourCells s r q).map (fun p => s.layout_.coeff p.1 p.2)).filter
        (fun v => decide (v ≠ 0))) := by
  have hc : unsignedPred s.layout_.cols = s.layout_.cols - 1 := by
    unfold unsignedPred; rw [if_neg (by omega)]
  have hrw : unsignedPred s.layout_.rows = s.layout_.rows - 1 := by
    unfold unsignedPred; rw [if_neg (by omega)]
  have e2 : decide (q < unsignedPred s.layout_.cols) = decide (q + 1 < s.layout_.cols) := by
    rw [hc]; apply decide_eq_decide.mpr; omega
  have e4 : decide (r < unsignedPred s.layout_.rows) = decide (r + 1 < s.layout_.rows) := by
    rw [hrw]; apply decide_eq_decide.mpr; omega
  unfold get_neighbours
  rw [e2, e4]
  rw [push_neighbour_eq s (q > 0) r (q - 1) [] (fun h => ⟨hr, by omega⟩)]
  simp only [bind, Except.bind]
  rw [push_neighbour_eq s (q + 1 < s.layout_.cols) r (q + 1) _ (fun h => ⟨hr, h⟩)]
  simp only
  rw [push_neighbour_eq s (r > 0) (r - 1) q _ (fun h => ⟨by omega, hq⟩)]
  simp only
  rw [push_neighbour_eq s (r + 1 < s.layout_.rows) (r + 1) q _ (fun h => ⟨h, hq⟩)]
  simp only [neighbourCells, List.map_append, List.filter_append, List.nil_append,
    List.append_assoc, gt_iff_lt]

theorem get_neighbours_congr {s t : Laplacian} (h : s.layout_ = t.layout_) (r q : Nat) :
    get_neighbours s r q = get_neighbours t r q := by
  unfold get_neighbours push_neighbour
  rw [h]

theorem mem_neighbourCells {s : Laplacian} {r q : Nat} {p : Nat × Nat}
    (hr : r < s.layout_.rows) (hq : q < s.layout_.cols)
    (hp : p ∈ neighbourCells s r q) :
    p.1 < s.layout_.rows ∧ p.2 < s.layout_.cols ∧ p ≠ (r, q) := by
  unfold neighbourCells at hp
  simp only [List.mem_append] at hp
  rcases hp with ((hp | hp) | hp) | hp <;>
    · split at hp
      · simp only [List.mem_singleton] at hp
        subst hp
        refine ⟨by simp; omega, by simp; omega, ?_⟩
        simp only [ne_eq, Prod.mk.injEq, not_and]
        omega
      · simp at hp

theorem neighbourCells_nodup (s : Laplacian) (r q : Nat) :
    (neighbourCells s r q).Nodup := by
  unfold neighbourCells
  split_ifs <;> simp <;> omega

/-- In a layout with pairwise distinct non-zero entries the neighbours of a cell are
pairwise distinct, differ from the value of the cell, and are non-zero values of cells of
the layout. -/
theorem get_neighbours_distinct {s : Laplacian} {r q : Nat} {K : List Int}
    (hd : DistinctChannels s.layout_)
    (hr : r < s.layout_.rows) (hq : q < s.layout_.cols)
    (hK : get_neighbours s r q = .ok K) :
    K.Nodup ∧ s.layout_.coeff r q ∉ K := by
  rw [get_neighbours_eq s r q hr hq] at hK
  injection hK with hK
  subst hK
  rw [List.filter_map]
  constructor
  · apply List.Nodup.map_on
    · intro x hx y hy hxy
      have hx1 := List.mem_filter.mp hx
      have hy1 := List.mem_filter.mp hy
      have bx := mem_neighbourCells hr hq hx1.1
      have by1 := mem_neighbourCells hr hq hy1.1
      have hne : s.layout_.coeff x.1 x.2 ≠ 0 := by simpa using hx1.2
      have := hd x.1 x.2 y.1 y.2 bx.1 bx.2.1 by1.1 by1.2.1 hne hxy
      exact Prod.ext this.1 this.2
    · exact (neighbourCells_nodup s r q).filter _
  · intro hmem
    obtain ⟨x, hx, hxv⟩ := List.mem_map.mp hmem
    have hx1 := List.mem_filter.mp hx
    have bx := mem_neighbourCells hr hq hx1.1
    have hne : s.layout_.coeff x.1 x.2 ≠ 0 := by simpa using hx1.2
    have := hd x.1 x.2 r q bx.1 bx.2.1 hr hq hne hxv
    exact bx.2.2 (Prod.ext this.1 this.2)

/-- Every neighbour is the non-zero value of a cell of the layout. -/
theorem get_neighbours_mem {s : Laplacian} {r q : Nat} {K : List Int} {k : Int}
    (hr : r < s.layout_.rows) (hq : q < s.layout_.cols)
    (hK : get_neighbours s r q = .ok K) (hk : k ∈ K) :
    k ≠ 0 ∧ ∃ i j, i < s.layout_.rows ∧ j < s.layout_.cols ∧ s.layout_.coeff i j = k := by
  rw [get_neighbours_eq s r q hr hq] at hK
  injection hK with hK
  subst hK
  obtain ⟨h1, h2⟩ := List.mem_filter.mp hk
  obtain ⟨x, hx, hxv⟩ := List.mem_map.mp h1
  have bx := mem_neighbourCells hr hq hx
  exact ⟨by simpa using h2, x.1, x.2, bx.1, bx.2.1, hxv⟩

/-! ### The assignments of `create_mask` -/

theorem maskWith_layout (s : Laplacian) (f : Nat → Nat → ℚ) :
    (maskWith s f).layout_ = s.layout_ := rfl

theorem maskWith_maskWith (s : Laplacian) (f g : Nat → Nat → ℚ) :
    maskWith (maskWith s f) g = maskWith s g := rfl

theorem maskWith_coeff (s : Laplacian) : maskWith s s.mask_.coeff = s := rfl

theorem assign_mask_ok (s : Laplacian) (i j : Int) (v : ℚ)
    (hi : 0 ≤ i ∧ i < s.mask_.rows) (hj : 0 ≤ j ∧ j < s.mask_.cols) :
    assign_mask s i j v =
      (.ok (), maskWith s (fun a b => if a = i.toNat ∧ b = j.toNat then v
        else s.mask_.coeff a b)) := by
  unfold assign_mask DynamicMatrix.write
  rw [if_pos ⟨hi.1, hi.2, hj.1, hj.2⟩]
  rfl

theorem assign_mask_error (s : Laplacian) (i j : Int) (v : ℚ)
    (h : ¬ ((0 ≤ i ∧ i < s.mask_.rows) ∧ (0 ≤ j ∧ j < s.mask_.cols))) :
    assign_mask s i j v = (.error .indexOutOfRange, s) := by
  unfold assign_mask DynamicMatrix.write
  rw [if_neg (by tauto)]

/-- When every neighbour is a channel of the mask, the loop over the neighbours writes the
weight in their rows of the column of the channel. -/
theorem write_neighbours_ok (chIdx size : Nat) (K : List Int) (s : Laplacian)
    (hch : 1 ≤ chIdx ∧ chIdx ≤ s.mask_.cols)
    (hK : ∀ k ∈ K, 1 ≤ k ∧ k ≤ (s.mask_.rows : Int)) :
    write_neighbours chIdx size K s =
      (.ok (), maskWith s (fun i j =>
        if j + 1 = chIdx ∧ ((i : Int) + 1) ∈ K then -1 / (size : ℚ)
        else s.mask_.coeff i j)) := by
  induction K generalizing s with
  | nil => simp [write_neighbours, maskWith]
  | cons k rest ih =>
    have hk := hK k (List.mem_cons_self _ _)
    unfold write_neighbours
    rw [assign_mask_ok s (k - 1) ((chIdx : Int) - 1) _ (by omega) (by omega)]
    simp only
    rw [ih (maskWith s (fun a b => if a = (k - 1).toNat ∧ b = ((chIdx : Int) - 1).toNat then
        -1 / (size : ℚ) else s.mask_.coeff a b)) hch
      (fun k2 hk2 => hK k2 (List.mem_cons_of_mem _ hk2))]
    rw [maskWith_maskWith]
    congr 2
    funext i j
    simp only [maskWith, List.mem_cons]
    have e1 : (i = (k - 1).toNat) ↔ ((i : Int) + 1 = k) := by omega
    have e2 : (j = ((chIdx : Int) - 1).toNat) ↔ (j + 1 = chIdx) := by omega
    simp only [e1, e2]
    by_cases h1 : j + 1 = chIdx
    · by_cases h2 : ((i : Int) + 1) ∈ rest
      · rw [if_pos ⟨h1, h2⟩, if_pos ⟨h1, Or.inr h2⟩]
      · by_cases h3 : (i : Int) + 1 = k
        · rw [if_neg (fun h => h2 h.2), if_pos ⟨h3, h1⟩, if_pos ⟨h1, Or.inl h3⟩]
        · rw [if_neg (fun h => h2 h.2), if_neg (fun h => h3 h.1),
            if_neg (fun h => h.2.elim h3 h2)]
    · rw [if_neg (fun h => h1 h.1), if_neg (fun h => h1 h.2), if_neg (fun h => h1 h.1)]

/-- The loop over the neighbours completes only when every neighbour is a channel of the
mask. -/
theorem write_neighbours_inv (chIdx size : Nat) (K : List Int) (s : Laplacian) (u : Unit)
    (hch : 1 ≤ chIdx ∧ chIdx ≤ s.mask_.cols)
    (h : (write_neighbours chIdx size K s).1 = .ok u) :
    ∀ k ∈ K, 1 ≤ k ∧ k ≤ (s.mask_.rows : Int) := by
  induction K generalizing s with
  | nil => intro k hk; simp at hk
  | cons k rest ih =>
    unfold write_neighbours at h
    by_cases hk : 1 ≤ k ∧ k ≤ (s.mask_.rows : Int)
    · rw [assign_mask_ok s (k - 1) ((chIdx : Int) - 1) _ (by omega) (by omega)] at h
      simp only at h
      have := ih (maskWith s (fun a b => if a = (k - 1).toNat ∧ b = ((chIdx : Int) - 1).toNat then
        -1 / (size : ℚ) else s.mask_.coeff a b)) hch h
      intro k2 hk2
      rcases List.mem_cons.mp hk2 with rfl | hmem
      · exact hk
      · exact this k2 hmem
    · rw [assign_mask_error s (k - 1) ((chIdx : Int) - 1) _ (by omega)] at h
      simp at h

theorem stepCoeff_congr {s t : Laplacian} (h : s.layout_ = t.layout_) (chIdx : Nat) :
    stepCoeff s chIdx = stepCoeff t chIdx := by
  funext f
  unfold stepCoeff
  rw [find_channel_congr h]
  cases find_channel t chIdx with
  | none => rfl
  | some p => simp only [get_neighbours_congr h]

theorem Writable_maskWith (s : Laplacian) (f : Nat → Nat → ℚ) (chIdx : Nat) :
    Writable (maskWith s f) chIdx ↔ Writable s chIdx := by
  unfold Writable
  have e1 : find_channel (maskWith s f) chIdx = find_channel s chIdx :=
    find_channel_congr rfl chIdx
  have e2 : ∀ r q, get_neighbours (maskWith s f) r q = get_neighbours s r q :=
    fun r q => get_neighbours_congr rfl r q
  simp only [e1, e2]
  rfl

/-- A round of the loop of `create_mask` whose assignments stay inside the mask. -/
theorem create_mask_body_ok (s : Laplacian) (chIdx : Nat) (h : Writable s chIdx) :
    create_mask_body s chIdx = (.ok (), maskWith s (stepCoeff s chIdx s.mask_.coeff)) := by
  unfold create_mask_body stepCoeff
  cases hf : find_channel s chIdx with
  | none => rfl
  | some p =>
    obtain ⟨r, q⟩ := p
    obtain ⟨K, hK, h1, h2, h3, h4⟩ := h r q hf
    simp only [hK]
    rw [assign_mask_ok s ((chIdx : Int) - 1) ((chIdx : Int) - 1) 1 (by omega) (by omega)]
    simp only
    rw [write_neighbours_ok chIdx K.length K
      (maskWith s (fun a b => if a = ((chIdx : Int) - 1).toNat ∧ b = ((chIdx : Int) - 1).toNat
        then 1 else s.mask_.coeff a b)) ⟨h1, h3⟩ h4]
    rw [maskWith_maskWith]
    congr 2
    funext i j
    simp only [maskWith, colWrite]
    have e1 : (i = ((chIdx : Int) - 1).toNat) ↔ (i + 1 = chIdx) := by omega
    have e2 : (j = ((chIdx : Int) - 1).toNat) ↔ (j + 1 = chIdx) := by omega
    simp only [e1, e2]
    by_cases a1 : j + 1 = chIdx
    · by_cases a2 : ((i : Int) + 1) ∈ K
      · rw [if_pos ⟨a1, a2⟩, if_pos a1, if_pos a2]
      · rw [if_neg (fun h => a2 h.2), if_pos a1, if_neg a2]
        by_cases a3 : i + 1 = chIdx
        · rw [if_pos ⟨a3, a1⟩, if_pos a3]
        · rw [if_neg (fun h => a3 h.1), if_neg a3]
    · rw [if_neg (fun h => a1 h.1), if_neg (fun h => a1 h.2), if_neg a1]

/-- A round of the loop of `create_mask` completes only when its assignments stay inside
the mask. -/
theorem create_mask_body_inv (s : Laplacian) (chIdx : Nat) (u : Unit)
    (hch : 1 ≤ chIdx ∧ chIdx ≤ s.mask_.rows ∧ chIdx ≤ s.mask_.cols)
    (h : (create_mask_body s chIdx).1 = .ok u) : Writable s chIdx := by
  intro r q hf
  unfold create_mask_body at h
  rw [hf] at h
  simp only at h
  cases hK : get_neighbours s r q with
  | error e => rw [hK] at h; simp at h
  | ok K =>
    rw [hK] at h
    simp only at h
    rw [assign_mask_ok s ((chIdx : Int) - 1) ((chIdx : Int) - 1) 1 (by omega) (by omega)] at h
    simp only at h
    have := write_neighbours_inv chIdx K.length K
      (maskWith s (fun a b => if a = ((chIdx : Int) - 1).toNat ∧ b = ((chIdx : Int) - 1).toNat
        then 1 else s.mask_.coeff a b)) u ⟨hch.1, hch.2.2⟩ h
    exact ⟨K, rfl, hch.1, hch.2.1, hch.2.2, this⟩

/-- The loop of `create_mask` when every assignment stays inside the mask. -/
theorem create_mask_loop_ok (chs : List Nat) (s : Laplacian)
    (h : ∀ ch ∈ chs, Writable s ch) :
    create_mask_loop chs s =
      (.ok (), maskWith s (chs.foldl (fun f ch => stepCoeff s ch f) s.mask_.coeff)) := by
  induction chs generalizing s with
  | nil => rfl
  | cons ch rest ih =>
    unfold create_mask_loop
    rw [create_mask_body_ok s ch (h ch (List.mem_cons_self _ _))]
    simp only
    rw [ih (maskWith s (stepCoeff s ch s.mask_.coeff))
      (fun c hc => (Writable_maskWith s _ c).mpr (h c (List.mem_cons_of_mem _ hc)))]
    rw [maskWith_maskWith, List.foldl_cons]
    have e : stepCoeff (maskWith s (stepCoeff s ch s.mask_.coeff)) = stepCoeff s := by
      funext c
      exact stepCoeff_congr rfl c
    rw [e]
    rfl

/-- The loop of `create_mask` completes only when every assignment stays inside the
mask. -/
theorem create_mask_loop_inv (chs : List Nat) (s : Laplacian) (u : Unit)
    (hch : ∀ ch ∈ chs, 1 ≤ ch ∧ ch ≤ s.mask_.rows ∧ ch ≤ s.mask_.cols)
    (h : (create_mask_loop chs s).1 = .ok u) : ∀ ch ∈ chs, Writable s ch := by
  induction chs generalizing s with
  | nil => intro ch hc; simp at hc
  | cons ch rest ih =>
    unfold create_mask_loop at h
    have hw : Writable s ch := by
      apply create_mask_body_inv s ch () (hch ch (List.mem_cons_self _ _))
      cases hb : create_mask_body s ch with
      | mk x s1 =>
        rw [hb] at h
        cases x with
        | ok v => rfl
        | error e => simp at h
    rw [create_mask_body_ok s ch hw] at h
    simp only at h
    have := ih (maskWith s (stepCoeff s ch s.mask_.coeff))
      (fun c hc => hch c (List.mem_cons_of_mem _ hc)) h
    intro c hc
    rcases List.mem_cons.mp hc with rfl | hmem
    · exact hw
    · exact (Writable_maskWith s _ c).mp (this c hmem)

/-! ### The mask built by `create_mask` -/

theorem stepCoeff_eq (s : Laplacian) (ch : Nat) :
    (∃ K, ∀ f, stepCoeff s ch f = colWrite ch K f) ∨ (∀ f, stepCoeff s ch f = f) := by
  unfold stepCoeff
  cases find_channel s ch with
  | none => right; intro f; rfl
  | some p =>
    obtain ⟨r, q⟩ := p
    simp only
    cases get_neighbours s r q with
    | error e => right; intro f; rfl
    | ok K => left; exact ⟨K, fun f => rfl⟩

theorem stepCoeff_other (s : Laplacian) (ch : Nat) (f : Nat → Nat → ℚ) (i j : Nat)
    (h : j + 1 ≠ ch) : stepCoeff s ch f i j = f i j := by
  rcases stepCoeff_eq s ch with ⟨K, hK⟩ | hK
  · rw [hK]; simp only [colWrite, if_neg h]
  · rw [hK]

theorem stepCoeff_twice (s : Laplacian) (ch : Nat) (f : Nat → Nat → ℚ) (i j : Nat) :
    stepCoeff s (j + 1) (stepCoeff s ch f) i j = stepCoeff s (j + 1) f i j := by
  by_cases h : j + 1 = ch
  · subst h
    rcases stepCoeff_eq s (j + 1) with ⟨K, hK⟩ | hK
    · rw [hK, hK]
      simp only [colWrite, if_true]
      split_ifs <;> rfl
    · rw [hK, hK]
  · have e := stepCoeff_other s ch f i j h
    rcases stepCoeff_eq s (j + 1) with ⟨K, hK⟩ | hK
    · rw [hK, hK]
      simp only [colWrite, if_true, e]
    · rw [hK, hK, e]

/-- A coefficient after the rounds of the channels `chs`: only the round of the channel of
its column matters. -/
theorem foldl_stepCoeff (s : Laplacian) (chs : List Nat) (f : Nat → Nat → ℚ) (i j : Nat) :
    (chs.foldl (fun g ch => stepCoeff s ch g) f) i j =
      if j + 1 ∈ chs then stepCoeff s (j + 1) f i j else f i j := by
  induction chs generalizing f with
  | nil => simp
  | cons ch rest ih =>
    rw [List.foldl_cons, ih]
    by_cases h1 : j + 1 ∈ rest
    · rw [if_pos h1, if_pos (List.mem_cons_of_mem _ h1), stepCoeff_twice]
    · rw [if_neg h1]
      by_cases h2 : j + 1 = ch
      · rw [if_pos (by rw [h2]; exact List.mem_cons_self _ _), h2]
      · rw [if_neg (by simp [h1, h2]), stepCoeff_other s ch f i j h2]

/-- The object on which the loop of `create_mask` starts. -/
theorem create_mask_unfold (s : Laplacian) :
    create_mask s =
      match create_mask_loop (List.range' 1 s.nchannels_)
        { s with mask_ := DynamicMatrix.Zero s.nchannels_ s.nchannels_ } with
      | (.ok _, s1) => (.ok true, s1)
      | (.error e, s1) => (.error e, s1) := rfl

/-- The neighbours of every channel of `1..N` that is found are channels of `1..N`. -/
theorem writable_zero_iff (s : Laplacian) (ch : Nat) :
    Writable { s with mask_ := DynamicMatrix.Zero s.nchannels_ s.nchannels_ } ch ↔
      ∀ r q, find_channel s ch = some (r, q) →
        ∃ K, get_neighbours s r q = .ok K ∧ 1 ≤ ch ∧ ch ≤ s.nchannels_ ∧
          ∀ k ∈ K, 1 ≤ k ∧ k ≤ (s.nchannels_ : Int) := by
  unfold Writable
  have e1 : find_channel { s with mask_ := DynamicMatrix.Zero s.nchannels_ s.nchannels_ } ch
      = find_channel s ch := find_channel_congr rfl ch
  have e2 : ∀ r q,
      get_neighbours { s with mask_ := DynamicMatrix.Zero s.nchannels_ s.nchannels_ } r q
        = get_neighbours s r q := fun r q => get_neighbours_congr rfl r q
  simp only [e1, e2, DynamicMatrix.Zero]
  constructor
  · intro h r q hf
    obtain ⟨K, a, b, c, _, d⟩ := h r q hf
    exact ⟨K, a, b, c, d⟩
  · intro h r q hf
    obtain ⟨K, a, b, c, d⟩ := h r q hf
    exact ⟨K, a, b, c, c, d⟩

/-- When the neighbours of every channel found are channels of the mask, `create_mask`
returns `true`, touches nothing but the mask, and the mask is the square matrix whose
column of channel `j + 1` is the column written by the round of that channel. -/
theorem create_mask_ok (s : Laplacian)
    (h : ∀ ch r q, 1 ≤ ch → ch ≤ s.nchannels_ → find_channel s ch = some (r, q) →
        ∃ K, get_neighbours s r q = .ok K ∧ ∀ k ∈ K, 1 ≤ k ∧ k ≤ (s.nchannels_ : Int)) :
    ∃ F : Nat → Nat → ℚ,
      create_mask s = (.ok true, { s with mask_ :=
        { rows := s.nchannels_, cols := s.nchannels_, coeff := F } }) ∧
      ∀ i j, j < s.nchannels_ → F i j = stepCoeff s (j + 1) (fun _ _ => 0) i j := by
  have hw : ∀ ch ∈ List.range' 1 s.nchannels_,
      Writable { s with mask_ := DynamicMatrix.Zero s.nchannels_ s.nchannels_ } ch := by
    intro ch hch
    rw [List.mem_range'_1] at hch
    rw [writable_zero_iff]
    intro r q hf
    obtain ⟨K, a, b⟩ := h ch r q hch.1 (by omega) hf
    exact ⟨K, a, hch.1, by omega, b⟩
  refine ⟨(List.range' 1 s.nchannels_).foldl (fun f ch =>
    stepCoeff { s with mask_ := DynamicMatrix.Zero s.nchannels_ s.nchannels_ } ch f)
    (fun _ _ => 0), ?_, ?_⟩
  · rw [create_mask_unfold, create_mask_loop_ok _ _ hw]
    rfl
  · intro i j hj
    rw [foldl_stepCoeff]
    rw [if_pos (by rw [List.mem_range'_1]; omega)]
    rw [stepCoeff_congr (t := s) rfl]
    rfl

/-- When `create_mask` returns, the neighbours of every channel found are channels of the
mask. -/
theorem create_mask_inv (s : Laplacian) (b : Bool) (h : (create_mask s).1 = .ok b) :
    ∀ ch r q, 1 ≤ ch → ch ≤ s.nchannels_ → find_channel s ch = some (r, q) →
        ∃ K, get_neighbours s r q = .ok K ∧ ∀ k ∈ K, 1 ≤ k ∧ k ≤ (s.nchannels_ : Int) := by
  intro ch r q h1 h2 hf
  rw [create_mask_unfold] at h
  have hl : (create_mask_loop (List.range' 1 s.nchannels_)
      { s with mask_ := DynamicMatrix.Zero s.nchannels_ s.nchannels_ }).1 = .ok () := by
    cases hb : create_mask_loop (List.range' 1 s.nchannels_)
      { s with mask_ := DynamicMatrix.Zero s.nchannels_ s.nchannels_ } with
    | mk x s1 =>
      rw [hb] at h
      cases x with
      | ok v => rfl
      | error e => simp at h
  have hw := create_mask_loop_inv _ _ () (by
    intro c hc
    rw [List.mem_range'_1] at hc
    simp only [DynamicMatrix.Zero]
    omega) hl ch (by rw [List.mem_range'_1]; omega)
  rw [writable_zero_iff] at hw
  obtain ⟨K, a, _, _, d⟩ := hw r q hf
  exact ⟨K, a, d⟩

theorem stepCoeff_found {s : Laplacian} {c r q : Nat} {K : List Int}
    (hf : find_channel s c = some (r, q)) (hK : get_neighbours s r q = .ok K)
    (f : Nat → Nat → ℚ) : stepCoeff s c f = colWrite c K f := by
  unfold stepCoeff
  rw [hf]
  simp only [hK]

theorem stepCoeff_not_found {s : Laplacian} {c : Nat} (hf : find_channel s c = none)
    (f : Nat → Nat → ℚ) : stepCoeff s c f = f := by
  unfold stepCoeff
  rw [hf]

/-- In a layout whose entries are `0` or channels of `1..N`, the neighbours of a cell are
channels of `1..N`. -/
theorem neighbours_upTo {s : Laplacian} {N : Nat} (hr : EntriesUpTo s.layout_ N)
    (ch r q : Nat) (hf : find_channel s ch = some (r, q)) :
    ∃ K, get_neighbours s r q = .ok K ∧ ∀ k ∈ K, 1 ≤ k ∧ k ≤ (N : Int) := by
  obtain ⟨h1, h2, _⟩ := find_channel_some hf
  refine ⟨_, get_neighbours_eq s r q h1 h2, ?_⟩
  intro k hk
  obtain ⟨hk0, i, j, hi, hj, hv⟩ := get_neighbours_mem h1 h2 (get_neighbours_eq s r q h1 h2) hk
  have := hr i j hi hj
  rw [hv] at this
  omega

/-- C2: for a layout whose non-zero entries are pairwise distinct and lie in `1..N`,
`create_mask` returns `true` and leaves an `N x N` mask in which, for every channel `c` of
`1..N`: if `c` is the entry of a cell of the layout and `K` is what `get_neighbours` returns
at that cell, then `mask(c-1, c-1) = 1`, `mask(k-1, c-1) = -1/|K|` for every `k` of `K` and
every other entry of column `c-1` is `0`; if `c` is the entry of no cell, column `c-1` is
`0` throughout. -/
theorem create_mask_columns (s : Laplacian)
    (hd : DistinctChannels s.layout_) (hr : EntriesUpTo s.layout_ s.nchannels_) :
    ∃ s2, create_mask s = (.ok true, s2) ∧
      s2.mask_.rows = s.nchannels_ ∧ s2.mask_.cols = s.nchannels_ ∧
      ∀ c, 1 ≤ c → c ≤ s.nchannels_ →
        (∀ r q, r < s.layout_.rows → q < s.layout_.cols → s.layout_.coeff r q = (c : Int) →
          ∃ K, get_neighbours s r q = .ok K ∧
            s2.mask_.coeff (c - 1) (c - 1) = 1 ∧
            (∀ k ∈ K, s2.mask_.coeff (k - 1).toNat (c - 1) = -1 / (K.length : ℚ)) ∧
            (∀ i, i < s.nchannels_ → i ≠ c - 1 → ((i : Int) + 1) ∉ K →
              s2.mask_.coeff i (c - 1) = 0)) ∧
        ((∀ r q, r < s.layout_.rows → q < s.layout_.cols →
            s.layout_.coeff r q ≠ (c : Int)) →
          ∀ i, i < s.nchannels_ → s2.mask_.coeff i (c - 1) = 0) := by
  obtain ⟨F, hF, hcoef⟩ := create_mask_ok s
    (fun ch r q _ _ hf => neighbours_upTo hr ch r q hf)
  refine ⟨_, hF, rfl, rfl, ?_⟩
  intro c hc1 hc2
  have hpos : ∀ i j, i < s.layout_.rows → j < s.layout_.cols → 0 ≤ s.layout_.coeff i j :=
    fun i j hi hj => (hr i j hi hj).1
  have hcol : ∀ i, F i (c - 1) = stepCoeff s c (fun _ _ => 0) i (c - 1) := by
    intro i
    rw [hcoef i (c - 1) (by omega)]
    have : c - 1 + 1 = c := by omega
    rw [this]
  constructor
  · intro r q hr1 hq1 hv
    have hf := find_channel_eq hd hpos hc1 hr1 hq1 hv
    have hK := get_neighbours_eq s r q hr1 hq1
    obtain ⟨_, hnot⟩ := get_neighbours_distinct hd hr1 hq1 hK
    have hKr := neighbours_upTo hr c r q hf
    obtain ⟨K2, hK2, hrange⟩ := hKr
    rw [hK] at hK2
    injection hK2 with hK2
    refine ⟨_, hK, ?_, ?_, ?_⟩
    · show F (c - 1) (c - 1) = 1
      rw [hcol, stepCoeff_found hf hK]
      simp only [colWrite]
      have e1 : c - 1 + 1 = c := by omega
      have e2 : ((c - 1 : Nat) : Int) + 1 = (c : Int) := by omega
      rw [if_pos e1, e2, if_neg (by rw [← hv]; exact hnot), if_pos e1]
    · intro k hk
      show F (k - 1).toNat (c - 1) = _
      rw [hcol, stepCoeff_found hf hK]
      simp only [colWrite]
      have e1 : c - 1 + 1 = c := by omega
      have hk1 := hrange k (hK2 ▸ hk)
      have e2 : (((k - 1).toNat : Nat) : Int) + 1 = k := by omega
      rw [if_pos e1, e2, if_pos hk]
    · intro i _ hi hnotin
      show F i (c - 1) = 0
      rw [hcol, stepCoeff_found hf hK]
      simp only [colWrite]
      have e1 : c - 1 + 1 = c := by omega
      rw [if_pos e1, if_neg hnotin, if_neg (by omega)]
  · intro habs i _
    show F i (c - 1) = 0
    have hf : find_channel s c = none := by
      apply find_channel_none
      intro r q hr1 hq1
      rw [toUnsigned_of_nonneg (hpos r q hr1 hq1)]
      exact habs r q hr1 hq1
    rw [hcol, stepCoeff_not_found hf]

/-! ### `apply` -/

/-- The sum over the rows of the mask that hold a neighbour is the sum over the
neighbours. -/
theorem sum_neighbour_rows (N : Nat) (a : Nat → ℚ) (K : List Int) (hnd : K.Nodup)
    (hrange : ∀ k ∈ K, 1 ≤ k ∧ k ≤ (N : Int)) :
    ∑ i in Finset.range N, (if ((i : Int) + 1) ∈ K then a i else 0) =
      (K.map (fun k => a (k - 1).toNat)).sum := by
  induction K with
  | nil => simp
  | cons k rest ih =>
    have hk := hrange k (List.mem_cons_self _ _)
    have hnot : k ∉ rest := (List.nodup_cons.mp hnd).1
    have hsplit : ∀ i ∈ Finset.range N,
        (if ((i : Int) + 1) ∈ k :: rest then a i else 0) =
          (if i = (k - 1).toNat then a i else 0) +
            (if ((i : Int) + 1) ∈ rest then a i else 0) := by
      intro i _
      by_cases h1 : i = (k - 1).toNat
      · have e : (i : Int) + 1 = k := by omega
        rw [if_pos (by rw [e]; exact List.mem_cons_self _ _), if_pos h1,
          if_neg (by rw [e]; exact hnot), add_zero]
      · have e : ¬ ((i : Int) + 1 = k) := by omega
        by_cases h2 : ((i : Int) + 1) ∈ rest
        · rw [if_pos (List.mem_cons_of_mem _ h2), if_neg h1, if_pos h2, zero_add]
        · rw [if_neg (by simp [e, h2]), if_neg h1, if_neg h2, add_zero]
    rw [Finset.sum_congr rfl hsplit, Finset.sum_add_distrib,
      ih (List.nodup_cons.mp hnd).2 (fun k2 hk2 => hrange k2 (List.mem_cons_of_mem _ hk2)),
      Finset.sum_ite_eq' (Finset.range N) ((k - 1).toNat) a,
      if_pos (by rw [Finset.mem_range]; omega)]
    simp

/-- The product of a row of samples with a column written by `create_mask`. -/
theorem sum_colWrite (N : Nat) (a : Nat → ℚ) (c : Nat) (K : List Int)
    (hc : 1 ≤ c ∧ c ≤ N) (hnd : K.Nodup) (hnot : (c : Int) ∉ K)
    (hrange : ∀ k ∈ K, 1 ≤ k ∧ k ≤ (N : Int)) :
    ∑ i in Finset.range N, a i * colWrite c K (fun _ _ => 0) i (c - 1) =
      a (c - 1) - (1 / (K.length : ℚ)) * (K.map (fun k => a (k - 1).toNat)).sum := by
  have hsplit : ∀ i ∈ Finset.range N,
      a i * colWrite c K (fun _ _ => 0) i (c - 1) =
        (if i = c - 1 then a i else 0) +
          (-1 / (K.length : ℚ)) * (if ((i : Int) + 1) ∈ K then a i else 0) := by
    intro i _
    simp only [colWrite]
    have e1 : c - 1 + 1 = c := by omega
    rw [if_pos e1]
    by_cases h1 : ((i : Int) + 1) ∈ K
    · have h2 : ¬ (i = c - 1) := by
        intro h
        apply hnot
        have : (c : Int) = (i : Int) + 1 := by omega
        rw [this]; exact h1
      rw [if_pos h1, if_neg h2, if_pos h1]
      ring
    · rw [if_neg h1, if_neg h1]
      by_cases h2 : i = c - 1
      · rw [if_pos (by omega), if_pos h2]; ring
      · rw [if_neg (by omega), if_neg h2]; ring
  rw [Finset.sum_congr rfl hsplit, Finset.sum_add_distrib, ← Finset.mul_sum,
    sum_neighbour_rows N a K hnd hrange,
    Finset.sum_ite_eq' (Finset.range N) (c - 1) a,
    if_pos (by rw [Finset.mem_range]; omega)]
  ring

theorem toUnsigned_natCast (N : Nat) : (toUnsigned (N : Int)).toNat = N := by
  rw [toUnsigned_of_nonneg (by omega)]
  simp

theorem set_layout_unfold (s : Laplacian) (layout : DynamicMatrix Int) (N : Nat) :
    set_layout s layout (N : Int) =
      match create_mask { s with layout_ := layout, nchannels_ := N,
                                 is_mask_set_ := false } with
      | (.ok true, s1) => (.ok true, { s1 with is_mask_set_ := true })
      | (.ok false, s1) => (.ok false, s1)
      | (.error e, s1) => (.error e, s1) := by
  unfold set_layout
  rw [toUnsigned_natCast]

/-- C1: for a layout whose non-zero entries are pairwise distinct and lie in `1..N` and a
sample matrix `inp` with `N` columns, `set_layout(layout, N)` returns `true`, after which
`apply(inp)` returns the product `inp * mask`, and for every channel `c` of `1..N` that is
the entry of a cell whose neighbour list `K` is not empty, every row `t` of the result has
`out(t, c-1) = inp(t, c-1) - (1/|K|) * sum of inp(t, k-1) over the k of K`. -/
theorem apply_after_set_layout (s : Laplacian) (layout : DynamicMatrix Int) (N : Nat)
    (inp : DynamicMatrix ℚ)
    (hd : DistinctChannels layout) (hr : EntriesUpTo layout N) (hin : inp.cols = N) :
    ∃ s2 out, set_layout s layout (N : Int) = (.ok true, s2) ∧ s2.layout_ = layout ∧
      apply s2 inp = (.ok out, s2) ∧ inp.mul s2.mask_ = .ok out ∧
      out.rows = inp.rows ∧ out.cols = N ∧
      ∀ c, 1 ≤ c → c ≤ N →
        ∀ r q, r < layout.rows → q < layout.cols → layout.coeff r q = (c : Int) →
          ∃ K, get_neighbours s2 r q = .ok K ∧
            (K ≠ [] → ∀ t, t < inp.rows →
              out.coeff t (c - 1) =
                inp.coeff t (c - 1) -
                  (1 / (K.length : ℚ)) * (K.map (fun k => inp.coeff t (k - 1).toNat)).sum) := by
  obtain ⟨F, hF, hcoef⟩ := create_mask_ok
    (Laplacian.mk false N layout s.mask_)
    (fun ch r q _ _ hf => neighbours_upTo (N := N) hr ch r q hf)
  have hpos : ∀ i j, i < layout.rows → j < layout.cols → 0 ≤ layout.coeff i j :=
    fun i j hi hj => (hr i j hi hj).1
  refine ⟨{ is_mask_set_ := true, nchannels_ := N, layout_ := layout,
            mask_ := { rows := N, cols := N, coeff := F } },
          { rows := inp.rows, cols := N,
            coeff := fun i j => ∑ k in Finset.range inp.cols, inp.coeff i k * F k j },
          ?_, rfl, ?_, ?_, rfl, rfl, ?_⟩
  · rw [set_layout_unfold, hF]
  · simp [apply, DynamicMatrix.mul, hin]
  · simp [DynamicMatrix.mul, hin]
  · intro c hc1 hc2 r q hr1 hq1 hv
    have hf : find_channel (Laplacian.mk false N layout s.mask_) c = some (r, q) :=
      find_channel_eq (s := (Laplacian.mk false N layout s.mask_)) hd hpos hc1 hr1 hq1 hv
    obtain ⟨K, hK, hrange⟩ := neighbours_upTo (N := N)
      (s := (Laplacian.mk false N layout s.mask_)) hr c r q hf
    obtain ⟨hnd, hnot⟩ := get_neighbours_distinct
      (s := (Laplacian.mk false N layout s.mask_)) hd hr1 hq1 hK
    refine ⟨K, (get_neighbours_congr rfl r q).trans hK, ?_⟩
    intro _ t _
    show ∑ k in Finset.range inp.cols, inp.coeff t k * F k (c - 1) = _
    rw [hin]
    have hcol : ∀ k ∈ Finset.range N, inp.coeff t k * F k (c - 1) =
        inp.coeff t k * colWrite c K (fun _ _ => 0) k (c - 1) := by
      intro k _
      rw [hcoef k (c - 1) (by show c - 1 < N; omega)]
      have : c - 1 + 1 = c := by omega
      rw [this, stepCoeff_found hf hK]
    rw [Finset.sum_congr rfl hcol]
    exact sum_colWrite N (fun k => inp.coeff t k) c K ⟨hc1, hc2⟩ hnd
      (by rw [← hv]; exact hnot) hrange

/-! ### Checking the hypotheses on a given layout -/

theorem distinctChannels_of_forall (L : DynamicMatrix Int)
    (h : ∀ p ∈ List.product (List.range L.rows) (List.range L.cols),
      ∀ p2 ∈ List.product (List.range L.rows) (List.range L.cols),
        L.coeff p.1 p.2 ≠ 0 → L.coeff p.1 p.2 = L.coeff p2.1 p2.2 → p = p2) :
    DistinctChannels L := by
  intro i j i2 j2 hi hj hi2 hj2 hne heq
  have := h (i, j) (List.pair_mem_product.mpr ⟨List.mem_range.mpr hi, List.mem_range.mpr hj⟩)
    (i2, j2) (List.pair_mem_product.mpr ⟨List.mem_range.mpr hi2, List.mem_range.mpr hj2⟩)
    hne heq
  exact ⟨congrArg Prod.fst this, congrArg Prod.snd this⟩

theorem entriesUpTo_of_forall (L : DynamicMatrix Int) (N : Nat)
    (h : ∀ i < L.rows, ∀ j < L.cols, 0 ≤ L.coeff i j ∧ L.coeff i j ≤ (N : Int)) :
    EntriesUpTo L N :=
  fun i j hi hj => h i hi j hj

theorem layout3x3_distinct : DistinctChannels layout3x3 :=
  distinctChannels_of_forall _ (by decide)

theorem layout3x3_upTo : EntriesUpTo layout3x3 9 :=
  entriesUpTo_of_forall _ _ (by decide)

/-- C2, on the layout `1 2 3; 4 5 6; 7 8 9` with nine channels. -/
theorem create_mask_columns_witness :
    DistinctChannels layout3x3 ∧ EntriesUpTo layout3x3 9 ∧
      ∃ s2, create_mask (Laplacian.mk false 9 layout3x3 DynamicMatrix.empty) = (.ok true, s2) ∧
        s2.mask_.rows = 9 ∧ s2.mask_.cols = 9 :=
  ⟨layout3x3_distinct, layout3x3_upTo, by
    obtain ⟨s2, h1, h2, h3, _⟩ := create_mask_columns
      (Laplacian.mk false 9 layout3x3 DynamicMatrix.empty) layout3x3_distinct layout3x3_upTo
    exact ⟨s2, h1, h2, h3⟩⟩

/-- C1, on the layout `1 2 3` with three channels and the samples of the tests: channel `2`
has the neighbours `1` and `3`, and the first row `1 2 3` of the samples gives
`2 - (1 + 3) / 2 = 0` in its column. -/
theorem apply_after_set_layout_witness :
    DistinctChannels layoutLine ∧ EntriesUpTo layoutLine 3 ∧ samples3x3.cols = 3 ∧
      ∃ s2 out, set_layout (construct 0) layoutLine 3 = (.ok true, s2) ∧
        apply s2 samples3x3 = (.ok out, s2) ∧ out.coeff 0 1 = 0 := by
  have hd : DistinctChannels layoutLine := distinctChannels_of_forall _ (by decide)
  have hr : EntriesUpTo layoutLine 3 := entriesUpTo_of_forall _ _ (by decide)
  obtain ⟨s2, out, h1, h2, h3, _, _, _, h7⟩ :=
    apply_after_set_layout (construct 0) layoutLine 3 samples3x3 hd hr rfl
  refine ⟨hd, hr, rfl, s2, out, h1, h3, ?_⟩
  obtain ⟨K, hK, hout⟩ := h7 2 (by decide) (by decide) 0 1 (by decide) (by decide) rfl
  have hK2 : get_neighbours s2 0 1 = .ok [1, 3] :=
    (get_neighbours_congr (t := Laplacian.mk false 3 layoutLine DynamicMatrix.empty) h2 0 1).trans
      rfl
  rw [hK2] at hK
  injection hK with hK
  subst hK
  have e1 : ((1 : Int) - 1).toNat = 0 := rfl
  have e3 : ((3 : Int) - 1).toNat = 2 := rfl
  have := hout (by simp) 0 (by decide)
  rw [this]
  simp only [List.map_cons, List.map_nil, e1, e3]
  norm_num [samples3x3, DynamicMatrix.ofLists]

/-- C3: on the layout `1 2` with one channel, whose cells are distinct positive channel
indices, `create_mask` does not complete: the neighbour `2` of channel `1` makes it assign
`mask_(1, 0)` in a `1 x 1` mask, outside the matrix. -/
theorem create_mask_out_of_range :
    DistinctChannels layoutPair ∧
      (∀ i j, i < layoutPair.rows → j < layoutPair.cols → 0 ≤ layoutPair.coeff i j) ∧
      find_channel (Laplacian.mk false 1 layoutPair DynamicMatrix.empty) 1 = some (0, 0) ∧
      get_neighbours (Laplacian.mk false 1 layoutPair DynamicMatrix.empty) 0 0 = .ok [2] ∧
      (DynamicMatrix.Zero 1 1 : DynamicMatrix ℚ).write (2 - 1) (1 - 1) (-1 / 1) =
        .error .indexOutOfRange ∧
      (create_mask (Laplacian.mk false 1 layoutPair DynamicMatrix.empty)).1 =
        .error .indexOutOfRange := by
  refine ⟨distinctChannels_of_forall _ (by decide), ?_, rfl, rfl, rfl, rfl⟩
  intro i j hi hj
  have hi1 : i < 1 := hi
  have hj1 : j < 2 := hj
  interval_cases i
  interval_cases j <;> decide

/-- C4: in a layout whose entries are `0` or positive and pairwise distinct when not `0`,
every column `c-1` (`c` in `1..N`) of a mask built by `create_mask` is of one of three
kinds: `c` is the entry of a cell with at least one neighbour and the column sums to `0`;
or `c` is the entry of a cell without neighbours and the column has the entry `1` on the
diagonal and `0` elsewhere; or `c` is the entry of no cell and the column is `0`
throughout. -/
theorem create_mask_column_kinds (s s2 : Laplacian) (b : Bool)
    (hd : DistinctChannels s.layout_)
    (hpos : ∀ i j, i < s.layout_.rows → j < s.layout_.cols → 0 ≤ s.layout_.coeff i j)
    (hbuilt : create_mask s = (.ok b, s2)) :
    s2.mask_.rows = s.nchannels_ ∧ s2.mask_.cols = s.nchannels_ ∧
    ∀ c, 1 ≤ c → c ≤ s.nchannels_ →
      (∃ r q K, r < s.layout_.rows ∧ q < s.layout_.cols ∧ s.layout_.coeff r q = (c : Int) ∧
          get_neighbours s r q = .ok K ∧ K ≠ [] ∧
          ∑ i in Finset.range s.nchannels_, s2.mask_.coeff i (c - 1) = 0) ∨
      (∃ r q, r < s.layout_.rows ∧ q < s.layout_.cols ∧ s.layout_.coeff r q = (c : Int) ∧
          get_neighbours s r q = .ok [] ∧
          s2.mask_.coeff (c - 1) (c - 1) = 1 ∧
          ∀ i, i < s.nchannels_ → i ≠ c - 1 → s2.mask_.coeff i (c - 1) = 0) ∨
      ((∀ r q, r < s.layout_.rows → q < s.layout_.cols → s.layout_.coeff r q ≠ (c : Int)) ∧
          ∀ i, i < s.nchannels_ → s2.mask_.coeff i (c - 1) = 0) := by
  have hinv := create_mask_inv s b (by rw [hbuilt])
  obtain ⟨F, hF, hcoef⟩ := create_mask_ok s hinv
  rw [hF] at hbuilt
  have hs2 : s2 = { s with mask_ :=
      { rows := s.nchannels_, cols := s.nchannels_, coeff := F } } :=
    (congrArg Prod.snd hbuilt).symm
  subst hs2
  refine ⟨rfl, rfl, ?_⟩
  intro c hc1 hc2
  have hcol : ∀ i, F i (c - 1) = stepCoeff s c (fun _ _ => 0) i (c - 1) := by
    intro i
    rw [hcoef i (c - 1) (by omega)]
    have : c - 1 + 1 = c := by omega
    rw [this]
  have e1 : c - 1 + 1 = c := by omega
  cases hf : find_channel s c with
  | none =>
    right; right
    constructor
    · intro r q hr1 hq1 hv
      obtain ⟨r2, q2, h2⟩ := find_channel_isSome hr1 hq1
        (by rw [toUnsigned_of_nonneg (hpos r q hr1 hq1)]; exact hv)
      rw [hf] at h2
      simp at h2
    · intro i _
      show F i (c - 1) = 0
      rw [hcol, stepCoeff_not_found hf]
  | some p =>
    obtain ⟨r, q⟩ := p
    obtain ⟨hr1, hq1, hv⟩ := find_channel_some hf
    rw [toUnsigned_of_nonneg (hpos r q hr1 hq1)] at hv
    obtain ⟨K, hK, hrange⟩ := hinv c r q hc1 hc2 hf
    obtain ⟨hnd, hnot⟩ := get_neighbours_distinct hd hr1 hq1 hK
    rw [hv] at hnot
    by_cases hnil : K = []
    · right; left
      subst hnil
      refine ⟨r, q, hr1, hq1, hv, hK, ?_, ?_⟩
      · show F (c - 1) (c - 1) = 1
        rw [hcol, stepCoeff_found hf hK]
        simp [colWrite, e1]
      · intro i _ hi
        show F i (c - 1) = 0
        rw [hcol, stepCoeff_found hf hK]
        simp only [colWrite, if_pos e1, List.not_mem_nil, if_false]
        rw [if_neg (by omega)]
    · left
      refine ⟨r, q, K, hr1, hq1, hv, hK, hnil, ?_⟩
      show ∑ i in Finset.range s.nchannels_, F i (c - 1) = 0
      have hrw : ∀ i ∈ Finset.range s.nchannels_, F i (c - 1) =
          (fun _ => (1 : ℚ)) i * colWrite c K (fun _ _ => 0) i (c - 1) := by
        intro i _
        rw [hcol, stepCoeff_found hf hK, one_mul]
      rw [Finset.sum_congr rfl hrw,
        sum_colWrite s.nchannels_ (fun _ => (1 : ℚ)) c K ⟨hc1, hc2⟩ hnd hnot hrange]
      have hlen : (K.length : ℚ) ≠ 0 := by
        have : K.length ≠ 0 := fun h => hnil (List.length_eq_zero.mp h)
        exact_mod_cast this
      simp only [List.map_const', List.sum_replicate, smul_eq_mul, mul_one]
      field_simp

/-- C4, on the layout `1 2 3; 4 5 6; 7 8 9` with nine channels. -/
theorem create_mask_column_kinds_witness :
    DistinctChannels layout3x3 ∧
      (∀ i j, i < layout3x3.rows → j < layout3x3.cols → 0 ≤ layout3x3.coeff i j) ∧
      ∃ s2, create_mask (Laplacian.mk false 9 layout3x3 DynamicMatrix.empty) = (.ok true, s2) ∧
        s2.mask_.rows = 9 ∧ s2.mask_.cols = 9 := by
  have hpos : ∀ i j, i < layout3x3.rows → j < layout3x3.cols → 0 ≤ layout3x3.coeff i j :=
    fun i j hi hj => (layout3x3_upTo i j hi hj).1
  obtain ⟨F, hF, _⟩ := create_mask_ok (Laplacian.mk false 9 layout3x3 DynamicMatrix.empty)
    (fun ch r q _ _ hf => neighbours_upTo (N := 9) layout3x3_upTo ch r q hf)
  have h := create_mask_column_kinds (Laplacian.mk false 9 layout3x3 DynamicMatrix.empty) _ true
    layout3x3_distinct hpos hF
  exact ⟨layout3x3_distinct, hpos, _, hF, h.1, h.2.1⟩

/-- C5: on the layout of the test `ApplyWithMaskSet` with three channels, `set_layout` does
not complete.  Channel `1` is found at `(0, 0)`, its neighbours are `15` and `16`, and the
assignment `mask_(15 - 1, 0)` falls outside the `3 x 3` mask: the cells that hold an index
above the channel count are not ignored. -/
theorem set_layout_apply_test_out_of_range :
    find_channel (Laplacian.mk false 3 layoutApplyTest DynamicMatrix.empty) 1 = some (0, 0) ∧
      get_neighbours (Laplacian.mk false 3 layoutApplyTest DynamicMatrix.empty) 0 0 =
        .ok [15, 16] ∧
      (DynamicMatrix.Zero 3 3 : DynamicMatrix ℚ).write (15 - 1) (1 - 1) (-1 / 2) =
        .error .indexOutOfRange ∧
      (set_layout (construct 0) layoutApplyTest 3).1 = .error .indexOutOfRange ∧
      (create_mask (Laplacian.mk false 3 layoutApplyTest DynamicMatrix.empty)).1 =
        .error .indexOutOfRange :=
  ⟨rfl, rfl, rfl, rfl, rfl⟩

/-- When `set_layout` returns, the mask is the one `create_mask` has built and the flag is
set. -/
theorem set_layout_returns (s s2 : Laplacian) (layout : DynamicMatrix Int) (N : Nat)
    (b : Bool) (h : set_layout s layout (N : Int) = (.ok b, s2)) :
    ∃ F : Nat → Nat → ℚ,
      b = true ∧
      s2 = { is_mask_set_ := true, nchannels_ := N, layout_ := layout,
             mask_ := { rows := N, cols := N, coeff := F } } ∧
      ∀ i j, j < N →
        F i j = stepCoeff (Laplacian.mk false N layout s.mask_) (j + 1) (fun _ _ => 0) i j := by
  rw [set_layout_unfold] at h
  cases hb : create_mask (Laplacian.mk false N layout s.mask_) with
  | mk x s1 =>
    cases x with
    | error e =>
      rw [hb] at h
      simp at h
    | ok b2 =>
      have hinv := create_mask_inv (Laplacian.mk false N layout s.mask_) b2 (by rw [hb])
      obtain ⟨F, hF, hcoef⟩ := create_mask_ok (Laplacian.mk false N layout s.mask_) hinv
      rw [hF] at h
      simp only [Prod.mk.injEq, Except.ok.injEq] at h
      exact ⟨F, h.1.symm, h.2.symm, hcoef⟩

/-- In a layout whose entries are `0` or channels of `1..N`, `set_layout` returns `true`. -/
theorem set_layout_ok_of_upTo (s : Laplacian) (layout : DynamicMatrix Int) (N : Nat)
    (hr : EntriesUpTo layout N) :
    ∃ s2, set_layout s layout (N : Int) = (.ok true, s2) := by
  obtain ⟨F, hF, _⟩ := create_mask_ok (Laplacian.mk false N layout s.mask_)
    (fun ch r q _ _ hf => neighbours_upTo (N := N) hr ch r q hf)
  rw [set_layout_unfold, hF]
  exact ⟨_, rfl⟩

theorem toUnsigned_ne_of_int32 {x : Int} {c : Nat} (hx : IsInt32 x)
    (hc : (c : Int) ≤ 2147483647) (hne : x ≠ (c : Int)) : toUnsigned x ≠ (c : Int) := by
  unfold toUnsigned
  unfold IsInt32 at hx
  split_ifs <;> omega

/-- C6: for every layout of `int` entries and every channel `c` of `1..N` that is the entry
of no cell, whenever `set_layout(layout, N)` returns, column `c-1` of the mask it has built
is `0` throughout, and for every sample matrix `inp` with `N` columns `apply(inp)` returns a
matrix whose column `c-1` is `0` in every row. -/
theorem absent_channel_column_zero (s s2 : Laplacian) (layout : DynamicMatrix Int)
    (N c : Nat) (b : Bool) (inp : DynamicMatrix ℚ)
    (hN : (N : Int) ≤ 2147483647)
    (hint : ∀ i j, i < layout.rows → j < layout.cols → IsInt32 (layout.coeff i j))
    (hc1 : 1 ≤ c) (hc2 : c ≤ N)
    (habs : ∀ r q, r < layout.rows → q < layout.cols → layout.coeff r q ≠ (c : Int))
    (hset : set_layout s layout (N : Int) = (.ok b, s2)) :
    s2.mask_.rows = N ∧ s2.mask_.cols = N ∧
    (∀ i, i < N → s2.mask_.coeff i (c - 1) = 0) ∧
    (inp.cols = N →
      ∃ out, apply s2 inp = (.ok out, s2) ∧ out.rows = inp.rows ∧ out.cols = N ∧
        ∀ t, t < inp.rows → out.coeff t (c - 1) = 0) := by
  obtain ⟨F, _, hs2, hcoef⟩ := set_layout_returns s s2 layout N b hset
  subst hs2
  have hf : find_channel (Laplacian.mk false N layout s.mask_) c = none := by
    apply find_channel_none
    intro r q hr1 hq1
    exact toUnsigned_ne_of_int32 (hint r q hr1 hq1) (by omega) (habs r q hr1 hq1)
  have hcol : ∀ i, F i (c - 1) = 0 := by
    intro i
    rw [hcoef i (c - 1) (by omega)]
    have : c - 1 + 1 = c := by omega
    rw [this, stepCoeff_not_found hf]
  refine ⟨rfl, rfl, fun i _ => hcol i, ?_⟩
  intro hin
  refine ⟨{ rows := inp.rows, cols := N,
            coeff := fun i j => ∑ k in Finset.range inp.cols, inp.coeff i k * F k j },
          ?_, rfl, rfl, ?_⟩
  · simp [apply, DynamicMatrix.mul, hin]
  · intro t _
    show ∑ k in Finset.range inp.cols, inp.coeff t k * F k (c - 1) = 0
    apply Finset.sum_eq_zero
    intro k _
    rw [hcol, mul_zero]

/-- C6, on the layout `1 0; 0 3` with three channels, of which channel `2` is the entry of
no cell. -/
theorem absent_channel_column_zero_witness :
    ((3 : Nat) : Int) ≤ 2147483647 ∧
      (∀ i j, i < layoutGap.rows → j < layoutGap.cols → IsInt32 (layoutGap.coeff i j)) ∧
      (∀ r q, r < layoutGap.rows → q < layoutGap.cols → layoutGap.coeff r q ≠ ((2 : Nat) : Int)) ∧
      ∃ s2, set_layout (construct 0) layoutGap ((3 : Nat) : Int) = (.ok true, s2) ∧
        (∀ i, i < 3 → s2.mask_.coeff i (2 - 1) = 0) ∧
        ∃ out, apply s2 samples3x3 = (.ok out, s2) ∧
          ∀ t, t < samples3x3.rows → out.coeff t (2 - 1) = 0 := by
  have hint : ∀ i j, i < layoutGap.rows → j < layoutGap.cols →
      IsInt32 (layoutGap.coeff i j) := by
    intro i j hi hj
    have hi1 : i < 2 := hi
    have hj1 : j < 2 := hj
    unfold IsInt32
    interval_cases i <;> interval_cases j <;> decide
  have habs : ∀ r q, r < layoutGap.rows → q < layoutGap.cols →
      layoutGap.coeff r q ≠ ((2 : Nat) : Int) := by
    intro i j hi hj
    have hi1 : i < 2 := hi
    have hj1 : j < 2 := hj
    interval_cases i <;> interval_cases j <;> decide
  obtain ⟨s2, hset⟩ := set_layout_ok_of_upTo (construct 0) layoutGap 3
    (entriesUpTo_of_forall _ _ (by decide))
  have h := absent_channel_column_zero (construct 0) s2 layoutGap 3 2 true samples3x3
    (by decide) hint (by decide) (by decide) habs hset
  obtain ⟨out, ho, _, _, hz⟩ := h.2.2.2 rfl
  exact ⟨by decide, hint, habs, s2, hset, h.2.2.1, out, ho, hz⟩

/-! ### The flag `is_mask_set_` -/

theorem mul_ne_maskNotSet (a b : DynamicMatrix ℚ) : a.mul b ≠ .error .maskNotSet := by
  unfold DynamicMatrix.mul
  split_ifs <;> simp

/-- C7, as the claim states it, fails: on a newly constructed filter `apply` on the samples
of the tests does not raise the mask-not-set error (it multiplies the samples with the empty
mask, whose sizes do not match). -/
theorem apply_new_not_maskNotSet :
    (construct 0).is_mask_set_ = true ∧
      ¬ ((apply (construct 0) samples3x3).1 = .error .maskNotSet) ∧
      (apply (construct 0) samples3x3).1 = .error .sizeMismatch := by
  refine ⟨rfl, ?_, rfl⟩
  intro h
  have h2 : (apply (construct 0) samples3x3).1 = .error .sizeMismatch := rfl
  rw [h2] at h
  simp at h

/-- C7, amended: the constructor sets the flag, so on a newly constructed filter `apply`
never raises the mask-not-set error; for every input it gives the product of the input with
the empty mask and leaves the object as it is. -/
theorem apply_new (nchannels0 : Nat) (inp : DynamicMatrix ℚ) :
    (construct nchannels0).is_mask_set_ = true ∧
      apply (construct nchannels0) inp =
        (inp.mul DynamicMatrix.empty, construct nchannels0) ∧
      (apply (construct nchannels0) inp).1 ≠ .error .maskNotSet := by
  refine ⟨rfl, rfl, ?_⟩
  show inp.mul DynamicMatrix.empty ≠ .error .maskNotSet
  exact mul_ne_maskNotSet _ _

/-- C8: `apply` raises the mask-not-set error exactly when the flag is `false`; when the
flag is `true` its result is the product `inp * mask_`; in both cases the object (layout,
mask, channel count and flag) is left as it is. -/
theorem apply_spec (s : Laplacian) (inp : DynamicMatrix ℚ) :
    ((apply s inp).1 = .error .maskNotSet ↔ s.is_mask_set_ = false) ∧
      (s.is_mask_set_ = true → (apply s inp).1 = inp.mul s.mask_) ∧
      (apply s inp).2 = s := by
  unfold apply
  cases h : s.is_mask_set_ with
  | false => simp
  | true =>
    refine ⟨⟨fun h2 => absurd h2 (mul_ne_maskNotSet _ _), fun h2 => by simp at h2⟩,
      fun _ => rfl, rfl⟩

/-! ### Layouts given as text -/

/-- C9: the text `1 2 1` holds channel `1` twice, yet `set_layout("1 2 1", 3)` returns
`true`: the regex of `has_duplicate` needs the two occurrences to follow each other, the
text is read as the row `1 2 1`, and the stored layout holds `1` in two cells. -/
theorem set_layout_string_keeps_duplicate :
    has_duplicate "1 2 1".toList = false ∧
      (set_layout_string (construct 0) "1 2 1".toList 3).1 = .ok true ∧
      (set_layout_string (construct 0) "1 2 1".toList 3).2.is_mask_set_ = true ∧
      (set_layout_string (construct 0) "1 2 1".toList 3).2.layout_.toLists = [[1, 2, 1]] ∧
      ¬ DistinctChannels (set_layout_string (construct 0) "1 2 1".toList 3).2.layout_ := by
  refine ⟨by decide, rfl, rfl, by decide, ?_⟩
  intro h
  have := h 0 0 0 2 (by decide) (by decide) (by decide) (by decide) (by decide) (by decide)
  omega

/-! ### Reading a layout text -/

theorem takeWhile_append_stop {α : Type} (p : α → Bool) (a b : List α)
    (ha : ∀ c ∈ a, p c = true) (hb : ∀ c, b.head? = some c → p c = false) :
    (a ++ b).takeWhile p = a ∧ (a ++ b).dropWhile p = b := by
  induction a with
  | nil =>
    cases b with
    | nil => simp
    | cons h t =>
      have := hb h rfl
      simp [List.takeWhile, List.dropWhile, this]
  | cons x xs ih =>
    have hx := ha x (List.mem_cons_self _ _)
    have := ih (fun c hc => ha c (List.mem_cons_of_mem _ hc))
    simp [List.takeWhile, List.dropWhile, hx, this.1, this.2]

theorem isSpace_not_digit {c : Char} (h : isSpace c = true) : isDigit c = false := by
  unfold isSpace at h
  unfold isDigit
  simp only [Bool.or_eq_true, Bool.and_eq_true, decide_eq_true_eq] at h
  simp only [Bool.and_eq_false_imp, decide_eq_true_eq, decide_eq_false_iff_not]
  omega

theorem isDigit_not_space {c : Char} (h : isDigit c = true) : isSpace c = false := by
  cases hs : isSpace c with
  | false => rfl
  | true => rw [isSpace_not_digit hs] at h; simp at h

theorem isDigit_toNat {c : Char} (h : isDigit c = true) : 48 ≤ c.toNat ∧ c.toNat ≤ 57 := by
  unfold isDigit at h
  simpa using h

theorem minus_not_space : isSpace (Char.ofNat 45) = false := by decide

theorem minus_not_digit : isDigit (Char.ofNat 45) = false := by decide

theorem isDigit_ne_sign {c : Char} (h : isDigit c = true) :
    c ≠ Char.ofNat 45 ∧ c ≠ Char.ofNat 43 := by
  have := isDigit_toNat h
  constructor
  · intro e; rw [e] at this; revert this; decide
  · intro e; rw [e] at this; revert this; decide

/-- The extraction of a well formed token that white space or the end of the stream
follows. -/
theorem extract_int_token (ws : List Char) (t : IntToken) (rest : List Char)
    (hws : ∀ c ∈ ws, isSpace c = true) (ht : t.WellFormed)
    (hrest : ∀ c, rest.head? = some c → isDigit c = false) :
    extract_int (ws ++ t.text ++ rest) = some (t.value, rest) := by
  obtain ⟨hne, hdig, hval⟩ := ht
  obtain ⟨d, ds, hd⟩ := List.exists_cons_of_ne_nil hne
  have hdd : isDigit d = true := hdig d (by rw [hd]; exact List.mem_cons_self _ _)
  have hhead : ∀ c, (t.text ++ rest).head? = some c → isSpace c = false := by
    intro c hc
    unfold IntToken.text at hc
    cases hn : t.negative with
    | true =>
      rw [hn] at hc
      simp only [if_true, List.singleton_append, List.cons_append, List.head?_cons,
        Option.some.injEq] at hc
      rw [← hc]; exact minus_not_space
    | false =>
      rw [hn, hd] at hc
      simp only [Bool.false_eq_true, if_false, List.nil_append, List.cons_append,
        List.head?_cons, Option.some.injEq] at hc
      rw [← hc]; exact isDigit_not_space hdd
  have h1 : (ws ++ t.text ++ rest).dropWhile isSpace = t.text ++ rest := by
    rw [List.append_assoc]
    exact (takeWhile_append_stop isSpace ws (t.text ++ rest) hws hhead).2
  have h2 := takeWhile_append_stop isDigit t.digits rest hdig hrest
  unfold extract_int
  simp only [h1]
  unfold IsInt32 at hval
  cases hn : t.negative with
  | true =>
    have e : t.text ++ rest = Char.ofNat 45 :: (t.digits ++ rest) := by
      simp [IntToken.text, hn]
    have ev : t.value = - digitsValue t.digits := by simp [IntToken.value, hn]
    rw [ev] at hval
    simp only [e, List.head?_cons, true_or, if_true, List.tail_cons, h2.1, h2.2,
      decide_True, if_neg hne, if_pos hval, ev]
  | false =>
    have e : t.text ++ rest = t.digits ++ rest := by
      simp [IntToken.text, hn]
    have ev : t.value = digitsValue t.digits := by simp [IntToken.value, hn]
    rw [ev] at hval
    have e2 : (t.digits ++ rest).head? = some d := by rw [hd]; rfl
    have hs := isDigit_ne_sign hdd
    have n1 : ¬ (some d = some (Char.ofNat 45) ∨ some d = some (Char.ofNat 43)) := by
      simp only [Option.some.injEq, not_or]
      exact hs
    have n2 : ¬ (some d = some (Char.ofNat 45)) := by
      simp only [Option.some.injEq]
      exact hs.1
    simp only [e, e2, if_neg n1, h2.1, h2.2, decide_eq_false n2, if_neg hne, if_pos hval,
      ev, Bool.false_eq_true, if_false]

theorem extract_int_spaces (trail : List Char) (h : ∀ c ∈ trail, isSpace c = true) :
    extract_int trail = none := by
  have h1 : trail.dropWhile isSpace = [] := by
    have := (takeWhile_append_stop isSpace trail [] h (by simp)).2
    simpa using this
  unfold extract_int
  simp [h1]

theorem IntToken.text_ne_nil {t : IntToken} (ht : t.WellFormed) : t.text ≠ [] := by
  unfold IntToken.text
  intro h
  exact ht.1 (List.append_eq_nil.mp h).2

theorem tokensText_length (toks : List (List Char × IntToken))
    (h : ∀ p ∈ toks, p.2.WellFormed) : toks.length ≤ (tokensText toks).length := by
  induction toks with
  | nil => simp
  | cons p ps ih =>
    have h1 := ih (fun q hq => h q (List.mem_cons_of_mem _ hq))
    have h2 : 1 ≤ p.2.text.length :=
      List.length_pos.mpr (IntToken.text_ne_nil (h p (List.mem_cons_self _ _)))
    simp only [tokensText, List.length_append, List.length_cons]
    omega

/-- What follows a token in a row starts with white space, or is empty. -/
theorem tokensText_head (ps : List (List Char × IntToken)) (trail : List Char)
    (hws : ∀ p ∈ ps, (∀ c ∈ p.1, isSpace c = true))
    (hsep : ∀ p ∈ ps, p.1 ≠ []) (htrail : ∀ c ∈ trail, isSpace c = true) :
    ∀ c, (tokensText ps ++ trail).head? = some c → isDigit c = false := by
  intro c hc
  apply isSpace_not_digit
  cases ps with
  | nil =>
    simp only [tokensText, List.nil_append] at hc
    exact htrail c (List.mem_of_mem_head? hc)
  | cons p ps2 =>
    obtain ⟨w, ws, hw⟩ := List.exists_cons_of_ne_nil (hsep p (List.mem_cons_self _ _))
    simp only [tokensText, hw, List.cons_append, List.head?_cons, Option.some.injEq] at hc
    rw [← hc]
    exact hws p (List.mem_cons_self _ _) w (by rw [hw]; exact List.mem_cons_self _ _)

/-- The loop `while(iss >> index)` on a well formed row reads its integers. -/
theorem read_row_tokens (toks : List (List Char × IntToken)) (trail : List Char)
    (fuel : Nat)
    (hwf : ∀ p ∈ toks, (∀ c ∈ p.1, isSpace c = true) ∧ p.2.WellFormed)
    (hsep : ∀ p ∈ toks.tail, p.1 ≠ []) (htrail : ∀ c ∈ trail, isSpace c = true)
    (hfuel : toks.length ≤ fuel) :
    read_row fuel (tokensText toks ++ trail) = toks.map fun p => p.2.value := by
  induction toks generalizing fuel with
  | nil =>
    cases fuel with
    | zero => rfl
    | succ f =>
      simp only [tokensText, List.nil_append, read_row, extract_int_spaces trail htrail,
        List.map_nil]
  | cons p ps ih =>
    cases fuel with
    | zero => simp at hfuel
    | succ f =>
      have hp := hwf p (List.mem_cons_self _ _)
      have hps : ∀ q ∈ ps, (∀ c ∈ q.1, isSpace c = true) ∧ q.2.WellFormed :=
        fun q hq => hwf q (List.mem_cons_of_mem _ hq)
      have hsep2 : ∀ q ∈ ps, q.1 ≠ [] := fun q hq => hsep q (by simpa using hq)
      have hx := extract_int_token p.1 p.2 (tokensText ps ++ trail) hp.1 hp.2
        (tokensText_head ps trail (fun q hq => (hps q hq).1) hsep2 htrail)
      have e : tokensText (p :: ps) ++ trail = p.1 ++ p.2.text ++ (tokensText ps ++ trail) := by
        simp [tokensText]
      rw [e]
      simp only [read_row, hx, List.map_cons]
      rw [ih f hps (fun q hq => hsep2 q (List.mem_of_mem_tail hq)) (by simpa using hfuel)]

/-- The row that `load_layout` reads from the text of a well formed row. -/
theorem read_row_layoutRow (r : LayoutRow) (h : r.WellFormed) :
    read_row r.text.length r.text = r.values := by
  obtain ⟨_, hwf, hsep, htrail⟩ := h
  unfold LayoutRow.text LayoutRow.values
  apply read_row_tokens r.tokens r.trailing _ hwf hsep htrail
  have := tokensText_length r.tokens (fun p hp => (hwf p hp).2)
  simp only [List.length_append]
  omega

theorem isSpace_ne_semicolon {c : Char} (h : isSpace c = true) : c ≠ ';' := by
  intro e
  rw [e] at h
  revert h
  decide

theorem isDigit_ne_semicolon {c : Char} (h : isDigit c = true) : c ≠ ';' := by
  intro e
  rw [e] at h
  revert h
  decide

theorem tokensText_no_semicolon (toks : List (List Char × IntToken))
    (hwf : ∀ p ∈ toks, (∀ c ∈ p.1, isSpace c = true) ∧ p.2.WellFormed) :
    ∀ c ∈ tokensText toks, c ≠ ';' := by
  induction toks with
  | nil => intro c hc; simp [tokensText] at hc
  | cons p ps ih =>
    intro c hc
    have hp := hwf p (List.mem_cons_self _ _)
    simp only [tokensText, List.mem_append] at hc
    rcases hc with (hc | hc) | hc
    · exact isSpace_ne_semicolon (hp.1 c hc)
    · unfold IntToken.text at hc
      rcases List.mem_append.mp hc with hc | hc
      · split at hc
        · simp only [List.mem_singleton] at hc
          rw [hc]; decide
        · simp at hc
      · exact isDigit_ne_semicolon (hp.2.2.1 c hc)
    · exact ih (fun q hq => hwf q (List.mem_cons_of_mem _ hq)) c hc

theorem LayoutRow.text_spec (r : LayoutRow) (h : r.WellFormed) :
    r.text ≠ [] ∧ ∀ c ∈ r.text, c ≠ ';' := by
  obtain ⟨hne, hwf, _, htrail⟩ := h
  constructor
  · intro e
    have h1 := tokensText_length r.tokens (fun p hp => (hwf p hp).2)
    have h2 : 1 ≤ r.tokens.length := List.length_pos.mpr hne
    unfold LayoutRow.text at e
    rw [(List.append_eq_nil.mp e).1] at h1
    simp only [List.length_nil] at h1
    omega
  · intro c hc
    rcases List.mem_append.mp hc with hc | hc
    · exact tokensText_no_semicolon r.tokens hwf c hc
    · exact isSpace_ne_semicolon (htrail c hc)

theorem getlines_nil (fuel : Nat) : getlines fuel [] = [] := by
  cases fuel <;> rfl

theorem getline_row (r rest : List Char) (hne : r ≠ []) (h : ∀ c ∈ r, c ≠ ';') :
    getline r ';' = some (r, []) ∧ getline (r ++ ';' :: rest) ';' = some (r, rest) := by
  have hp : ∀ c ∈ r, (c != ';') = true := fun c hc => by simpa using h c hc
  have h1 := takeWhile_append_stop (fun c => c != ';') r [] hp (by simp)
  have h2 := takeWhile_append_stop (fun c => c != ';') r (';' :: rest) hp (by simp)
  rw [List.append_nil] at h1
  unfold getline
  constructor
  · rw [if_neg hne, h1.1, h1.2]; rfl
  · rw [if_neg (by simp), h2.1, h2.2]; rfl

/-- The loop `while(getline(ss, srow, ';'))` on rows joined by `;` reads the rows. -/
theorem getlines_joinRows (rows : List (List Char)) (fuel : Nat)
    (h : ∀ r ∈ rows, r ≠ [] ∧ ∀ c ∈ r, c ≠ ';') (hfuel : rows.length ≤ fuel) :
    getlines fuel (joinRows rows) = rows := by
  induction rows generalizing fuel with
  | nil => exact getlines_nil fuel
  | cons r rs ih =>
    have hr := h r (List.mem_cons_self _ _)
    cases fuel with
    | zero => simp at hfuel
    | succ f =>
      cases rs with
      | nil =>
        simp only [joinRows, getlines, (getline_row r [] hr.1 hr.2).1, getlines_nil]
      | cons r2 rs2 =>
        simp only [joinRows, getlines, (getline_row r _ hr.1 hr.2).2]
        rw [ih f (fun q hq => h q (List.mem_cons_of_mem _ hq)) (by simpa using hfuel)]

theorem joinRows_length (rows : List (List Char)) (h : ∀ r ∈ rows, r ≠ []) :
    rows.length ≤ (joinRows rows).length := by
  induction rows with
  | nil => simp
  | cons r rs ih =>
    have hr : 1 ≤ r.length := List.length_pos.mpr (h r (List.mem_cons_self _ _))
    have := ih (fun q hq => h q (List.mem_cons_of_mem _ hq))
    cases rs with
    | nil => simpa [joinRows] using hr
    | cons r2 rs2 =>
      simp only [joinRows, List.length_append, List.length_cons] at this ⊢
      omega

/-- The vector of rows that `load_layout` reads from a well formed text. -/
theorem load_layout_rows (rows : List LayoutRow) (h : ∀ r ∈ rows, r.WellFormed) :
    ((getlines (joinRows (rows.map LayoutRow.text)).length
        (joinRows (rows.map LayoutRow.text))).map fun srow => read_row srow.length srow) =
      rows.map LayoutRow.values := by
  have hspec : ∀ t ∈ rows.map LayoutRow.text, t ≠ [] ∧ ∀ c ∈ t, c ≠ ';' := by
    intro t ht
    obtain ⟨r, hr, rfl⟩ := List.mem_map.mp ht
    exact LayoutRow.text_spec r (h r hr)
  rw [getlines_joinRows _ _ hspec (joinRows_length _ (fun t ht => (hspec t ht).1)),
    List.map_map]
  apply List.map_congr_left
  intro r hr
  exact read_row_layoutRow r (h r hr)

/-- C10: for a text made of one or more rows joined by `;`, each row being one or more
decimal integer tokens (of `int` value) separated, and possibly surrounded, by white space:
`load_layout` returns; it returns `true` exactly when every row has as many tokens as the
first row; when it returns `true` the stored layout has one row per row of the text, one
column per token of the first row, and the entry `(i, j)` is the `j`-th integer of the
`i`-th row; when it returns `false` the object, hence the stored layout, is left as it
is. -/
theorem load_layout_spec (s : Laplacian) (first : LayoutRow) (others : List LayoutRow)
    (h : ∀ r ∈ first :: others, r.WellFormed) :
    ∃ b s2, load_layout s (joinRows ((first :: others).map LayoutRow.text)) = (.ok b, s2) ∧
      (b = true ↔ ∀ r ∈ first :: others, r.tokens.length = first.tokens.length) ∧
      (b = true →
        s2.layout_.rows = (first :: others).length ∧
        s2.layout_.cols = first.tokens.length ∧
        ∀ i j (r : LayoutRow) (v : Int), (first :: others)[i]? = some r →
          r.values[j]? = some v → s2.layout_.coeff i j = v) ∧
      (b = false → s2 = s) := by
  have hrows := load_layout_rows (first :: others) h
  unfold load_layout
  simp only [hrows]
  simp only [List.map_cons]
  by_cases hrect : ∀ r ∈ first :: others, r.tokens.length = first.tokens.length
  · have hany : ((first.values :: others.map LayoutRow.values).any
        fun vrow => vrow.length != first.values.length) = false := by
      rw [List.any_eq_false]
      intro vrow hv
      rw [← List.map_cons, List.mem_map] at hv
      obtain ⟨r, hr, rfl⟩ := hv
      simp [LayoutRow.values, hrect r hr]
    rw [hany]
    refine ⟨true, _, rfl, ⟨fun _ => hrect, fun _ => rfl⟩, ?_, fun hb => by simp at hb⟩
    intro _
    refine ⟨by simp [DynamicMatrix.ofLists], by simp [DynamicMatrix.ofLists, LayoutRow.values],
      ?_⟩
    intro i j r v hi hj
    show ((first.values :: others.map LayoutRow.values).getD i []).getD j 0 = v
    have e : (first.values :: others.map LayoutRow.values)[i]? = some r.values := by
      rw [← List.map_cons, List.getElem?_map, hi]; rfl
    have e1 : (first.values :: others.map LayoutRow.values).getD i [] = r.values := by
      rw [List.getD_eq_getElem?_getD, e, Option.getD_some]
    rw [e1, List.getD_eq_getElem?_getD, hj, Option.getD_some]
  · have hany : ((first.values :: others.map LayoutRow.values).any
        fun vrow => vrow.length != first.values.length) = true := by
      rw [List.any_eq_true]
      push_neg at hrect
      obtain ⟨r, hr, hne⟩ := hrect
      refine ⟨r.values, ?_, ?_⟩
      · rw [← List.map_cons]; exact List.mem_map_of_mem _ hr
      · simp [LayoutRow.values, hne]
    rw [hany]
    exact ⟨false, s, rfl, ⟨fun hb => by simp at hb, fun hr => absurd hr hrect⟩,
      fun hb => by simp at hb, fun _ => rfl⟩

/-- C10, on the text `1 2 3; 4 5; 7 8 9` of the test `LoadLayoutInvalid`, whose second row
is shorter than the first: `load_layout` returns `false` and leaves the object as it is. -/
theorem load_layout_spec_witness :
    (∀ r ∈ raggedRows, r.WellFormed) ∧
      joinRows (raggedRows.map LayoutRow.text) = "1 2 3; 4 5; 7 8 9".toList ∧
      load_layout (construct 0) "1 2 3; 4 5; 7 8 9".toList = (.ok false, construct 0) := by
  have hwf : ∀ r ∈ raggedRows, r.WellFormed := by decide
  have htext : joinRows (raggedRows.map LayoutRow.text) = "1 2 3; 4 5; 7 8 9".toList := by
    decide
  refine ⟨hwf, htext, ?_⟩
  obtain ⟨b, s2, hload, hb, _, hfalse⟩ := load_layout_spec (construct 0) _ _ hwf
  have hbf : b = false := by
    cases b with
    | false => rfl
    | true =>
      have := hb.mp rfl _ (List.mem_cons_of_mem _ (List.mem_cons_self _ _))
      revert this
      decide
  rw [← htext]
  change load_layout (construct 0) (joinRows (List.map LayoutRow.text raggedRows)) = _
  rw [show raggedRows = _ :: _ from rfl, hload, hbf, hfalse hbf]

/-- C11: in the text `1 2 x; 3 4` the token `x` is not an integer, yet `load_layout`
returns `true`: the extraction fails on `x`, which ends the loop over the first row with the
integers `1 2` read so far, the second row gives `3 4`, the two rows have the same length
and the stored layout is the grid `1 2; 3 4`. -/
theorem load_layout_keeps_bad_token :
    extract_int " x".toList = none ∧
      read_row 6 "1 2 x".toList = [1, 2] ∧
      (load_layout (construct 0) "1 2 x; 3 4".toList).1 = .ok true ∧
      (load_layout (construct 0) "1 2 x; 3 4".toList).2.layout_.toLists = [[1, 2], [3, 4]] := by
  refine ⟨by decide, by decide, rfl, by decide⟩

/-- C12: on the empty text `load_layout` does not return: no row is read and
`vlayout.at(0)` throws `std::out_of_range`.  On a text made of one space it returns `true`
and stores a layout of one row and no column. -/
theorem load_layout_empty_text (s : Laplacian) :
    load_layout s [] = (.error .vectorAt, s) ∧
      (load_layout s " ".toList).1 = .ok true ∧
      (load_layout s " ".toList).2.layout_.rows = 1 ∧
      (load_layout s " ".toList).2.layout_.cols = 0 :=
  ⟨rfl, rfl, rfl, rfl⟩

/-- C13: the text `10 10` repeats the positive value `10`, yet `has_duplicate` returns
`false`, because the group `[1-9]+` of the regex does not match a number with the digit `0`;
`set_layout("10 10", 10)` then returns `true` with channel `10` in two cells.  On `1 1` it
returns `true`. -/
theorem has_duplicate_misses_zero_digit :
    has_duplicate "1 1".toList = true ∧
      has_duplicate "10 10".toList = false ∧
      (set_layout_string (construct 0) "10 10".toList 10).1 = .ok true ∧
      (set_layout_string (construct 0) "10 10".toList 10).2.layout_.toLists = [[10, 10]] := by
  refine ⟨by decide, by decide, rfl, by decide⟩

/-- C20: on the text `1 2 3; 4 5 6; 7 8 9` with three channels (the call of the test
`SetLayoutString`) `has_duplicate` is `false` and `load_layout` returns `true`, but
`set_layout` does not return `true`: channel `1` has the neighbours `2` and `4`, and the
assignment `mask_(4 - 1, 0)` falls outside the `3 x 3` mask.  The flag is left `false`. -/
theorem set_layout_string_test_out_of_range :
    has_duplicate "1 2 3; 4 5 6; 7 8 9".toList = false ∧
      (load_layout (Laplacian.mk false 3 DynamicMatrix.empty DynamicMatrix.empty)
        "1 2 3; 4 5 6; 7 8 9".toList).1 = .ok true ∧
      get_neighbours (Laplacian.mk false 3 layout3x3 DynamicMatrix.empty) 0 0 = .ok [2, 4] ∧
      (set_layout_string (construct 0) "1 2 3; 4 5 6; 7 8 9".toList 3).1 =
        .error .indexOutOfRange ∧
      (set_layout_string (construct 0) "1 2 3; 4 5 6; 7 8 9".toList 3).2.is_mask_set_ =
        false := by
  refine ⟨by decide, rfl, rfl, rfl, rfl⟩

/-! ### `get_neighbours` and `set_mask` -/

theorem filterMap_four {α β : Type} (f : α → Option β) (a b c d : α) :
    [a, b, c, d].filterMap f =
      (f a).toList ++ (f b).toList ++ (f c).toList ++ (f d).toList := by
  simp only [List.filterMap_cons, List.filterMap_nil]
  cases f a <;> cases f b <;> cases f c <;> cases f d <;> rfl

/-- A block of `get_neighbours` and the cell of the specification it stands for. -/
theorem cellValue_block (L : DynamicMatrix Int) (i j : Int) (i2 j2 : Nat) (cond : Prop)
    [Decidable cond] (hi : i.toNat = i2) (hj : j.toNat = j2)
    (h : (0 ≤ i ∧ i < L.rows ∧ 0 ≤ j ∧ j < L.cols) ↔ cond) :
    (cellValue L i j).toList =
      ((if cond then [(i2, j2)] else []).map (fun p => L.coeff p.1 p.2)).filter
        (fun v => decide (v ≠ 0)) := by
  unfold cellValue
  rw [hi, hj]
  by_cases hc : cond
  · have hb := h.mpr hc
    by_cases hv : L.coeff i2 j2 = 0
    · rw [if_neg (by tauto), if_pos hc]
      simp [hv]
    · rw [if_pos ⟨hb.1, hb.2.1, hb.2.2.1, hb.2.2.2, hv⟩, if_pos hc]
      simp [hv]
  · rw [if_neg (fun hx => hc (h.mp ⟨hx.1, hx.2.1, hx.2.2.1, hx.2.2.2.1⟩)), if_neg hc]
    simp

/-- C18: on a cell `(r, c)` of the layout `get_neighbours` returns the values of the cells
`(r, c-1)`, `(r, c+1)`, `(r-1, c)`, `(r+1, c)`, in that order, without the cells that lie
outside the grid or hold `0`; the result has at most four elements. -/
theorem get_neighbours_spec (s : Laplacian) (r c : Nat)
    (hr : r < s.layout_.rows) (hc : c < s.layout_.cols) :
    get_neighbours s r c = .ok (neighbours_of s.layout_ r c) ∧
      (neighbours_of s.layout_ r c).length ≤ 4 := by
  constructor
  · rw [get_neighbours_eq s r c hr hc]
    congr 1
    unfold neighbours_of neighbourCells
    rw [filterMap_four,
      cellValue_block s.layout_ (r : Int) ((c : Int) - 1) r (c - 1) (0 < c)
        (by omega) (by omega) (by constructor <;> intro h <;> omega),
      cellValue_block s.layout_ (r : Int) ((c : Int) + 1) r (c + 1) (c + 1 < s.layout_.cols)
        (by omega) (by omega) (by constructor <;> intro h <;> omega),
      cellValue_block s.layout_ ((r : Int) - 1) (c : Int) (r - 1) c (0 < r)
        (by omega) (by omega) (by constructor <;> intro h <;> omega),
      cellValue_block s.layout_ ((r : Int) + 1) (c : Int) (r + 1) c (r + 1 < s.layout_.rows)
        (by omega) (by omega) (by constructor <;> intro h <;> omega)]
    simp only [List.map_append, List.filter_append]
  · unfold neighbours_of
    exact (List.length_filterMap_le _ _).trans (by simp)

/-- C18, on the layout `1 2 3; 4 5 6; 7 8 9`: the cell `(1, 1)` gives `4 6 2 8`, the cell
`(0, 1)` gives `1 3 5`, the cell `(0, 0)` gives two elements. -/
theorem get_neighbours_spec_witness :
    (1 < layout3x3.rows ∧ 1 < layout3x3.cols ∧ 0 < layout3x3.rows ∧ 0 < layout3x3.cols) ∧
      get_neighbours (Laplacian.mk true 3 layout3x3 DynamicMatrix.empty) 1 1 =
        .ok [4, 6, 2, 8] ∧
      get_neighbours (Laplacian.mk true 3 layout3x3 DynamicMatrix.empty) 0 1 =
        .ok [1, 3, 5] ∧
      get_neighbours (Laplacian.mk true 3 layout3x3 DynamicMatrix.empty) 0 0 = .ok [2, 4] := by
  have h11 := (get_neighbours_spec (Laplacian.mk true 3 layout3x3 DynamicMatrix.empty) 1 1
    (by decide) (by decide)).1
  have h01 := (get_neighbours_spec (Laplacian.mk true 3 layout3x3 DynamicMatrix.empty) 0 1
    (by decide) (by decide)).1
  have h00 := (get_neighbours_spec (Laplacian.mk true 3 layout3x3 DynamicMatrix.empty) 0 0
    (by decide) (by decide)).1
  refine ⟨by decide, ?_, ?_, ?_⟩
  · rw [h11]; exact congrArg _ (by decide)
  · rw [h01]; exact congrArg _ (by decide)
  · rw [h00]; exact congrArg _ (by decide)

/-- C19: `set_mask(m)` returns `true`, sets the flag and makes `mask()` return `m`; on a
filter whose flag is set, injecting the value of `mask()` again leaves the object, and
with it the result of `apply` on every input, as it was. -/
theorem set_mask_round_trip (s : Laplacian) (m inp : DynamicMatrix ℚ) :
    (set_mask s m).1 = .ok true ∧ (set_mask s m).2.is_mask_set_ = true ∧
      mask (set_mask s m).2 = m ∧
      (s.is_mask_set_ = true →
        (set_mask s (mask s)).2 = s ∧
        (apply (set_mask s (mask s)).2 inp).1 = (apply s inp).1) := by
  refine ⟨rfl, rfl, rfl, ?_⟩
  intro h
  have e : (set_mask s (mask s)).2 = s := by
    cases s with
    | mk f n l k =>
      simp only at h
      subst h
      rfl
  exact ⟨e, by rw [e]⟩

/-- C19, on the filter that `set_layout` leaves for the layout `1 2 3` with three channels
and on the samples of the tests. -/
theorem set_mask_round_trip_witness :
    ∃ s, set_layout (construct 0) layoutLine ((3 : Nat) : Int) = (.ok true, s) ∧
      s.is_mask_set_ = true ∧
      (apply (set_mask s (mask s)).2 samples3x3).1 = (apply s samples3x3).1 := by
  obtain ⟨s, hs⟩ := set_layout_ok_of_upTo (construct 0) layoutLine 3
    (entriesUpTo_of_forall _ _ (by decide))
  obtain ⟨F, _, hs2, _⟩ := set_layout_returns (construct 0) s layoutLine 3 true hs
  have hflag : s.is_mask_set_ = true := by rw [hs2]
  exact ⟨s, hs, hflag, ((set_mask_round_trip s DynamicMatrix.empty samples3x3).2.2.2 hflag).2⟩

/-! ### What the configuration calls leave behind -/

/-- The three ways `load_layout` ends: the exception of `vlayout.at(0)`, `false` with the
object as it was, or `true` with a new layout of at least one row. -/
theorem load_layout_cases (s : Laplacian) (text : List Char) :
    load_layout s text = (.error .vectorAt, s) ∨ load_layout s text = (.ok false, s) ∨
      ∃ L : DynamicMatrix Int, load_layout s text = (.ok true, { s with layout_ := L }) ∧
        0 < L.rows := by
  unfold load_layout
  cases h : (getlines text.length text).map fun srow => read_row srow.length srow with
  | nil => left; rfl
  | cons vrow0 rest =>
    simp only
    split_ifs
    · right; left; rfl
    · right; right
      exact ⟨_, rfl, by simp [DynamicMatrix.ofLists]⟩

/-- When `create_mask` returns, it returns `true` and has touched nothing but the mask,
which is square of size `nchannels_`. -/
theorem create_mask_returns (s s2 : Laplacian) (b : Bool)
    (h : create_mask s = (.ok b, s2)) :
    b = true ∧ ∃ F : Nat → Nat → ℚ,
      s2 = { s with mask_ := { rows := s.nchannels_, cols := s.nchannels_, coeff := F } } := by
  have hinv := create_mask_inv s b (by rw [h])
  obtain ⟨F, hF, _⟩ := create_mask_ok s hinv
  rw [hF] at h
  simp only [Prod.mk.injEq, Except.ok.injEq] at h
  exact ⟨h.1.symm, F, h.2.symm⟩

/-- `create_mask` never returns `false`. -/
theorem create_mask_ne_false (s s2 : Laplacian) : create_mask s ≠ (.ok false, s2) := by
  intro h
  have := (create_mask_returns s s2 false h).1
  simp at this

/-- With the flag set `apply` does not raise the mask-not-set error. -/
theorem apply_unchanged_flag (s : Laplacian) (inp : DynamicMatrix ℚ)
    (h : s.is_mask_set_ = true) : (apply s inp).1 ≠ .error .maskNotSet := by
  unfold apply
  rw [h]
  exact mul_ne_maskNotSet _ _

/-- C15, as the claim states it, fails: on the filter that `set_layout` has made ready for
the layout `1 2 3`, the call `set_layout("1 2 3; 4 5; 7 8 9", 3)` returns `false` (the text
is ragged) and leaves the flag `false`, so that `apply`, which returned a matrix before the
call, raises the mask-not-set error after it. -/
theorem failed_set_layout_clears_flag :
    readyFilter.is_mask_set_ = true ∧
      (set_layout_string readyFilter raggedText 3).1 = .ok false ∧
      (set_layout_string readyFilter raggedText 3).2.is_mask_set_ = false ∧
      (apply (set_layout_string readyFilter raggedText 3).2 samples3x3).1 =
        .error .maskNotSet ∧
      (apply readyFilter samples3x3).1 ≠ .error .maskNotSet := by
  refine ⟨rfl, rfl, rfl, rfl, ?_⟩
  exact (apply_unchanged_flag readyFilter samples3x3 rfl)

/-- C15, amended: a call of `configure` that fails because the layout is missing, has a
duplicate or is malformed leaves the object as it was; a call of `set_layout(text, N)` that
returns `false` leaves the mask and the stored layout as they were, but it has stored `N`
as the channel count and has cleared the flag. -/
theorem failed_configuration_state (s s2 : Laplacian) (text : List Char) (N : Int)
    (layoutParam : Option (List Char)) (nchannelsParam : Option Nat) :
    (set_layout_string s text N = (.ok false, s2) →
      s2.mask_ = s.mask_ ∧ s2.layout_ = s.layout_ ∧ s2.is_mask_set_ = false ∧
        s2.nchannels_ = (toUnsigned N).toNat) ∧
    ((layoutParam = none ∨ ∃ t, layoutParam = some t ∧
        (has_duplicate t = true ∨ (load_layout s t).1 = .ok false)) →
      configure s layoutParam nchannelsParam = (.ok false, s)) := by
  constructor
  · intro h
    unfold set_layout_string at h
    by_cases hd : has_duplicate text = true
    · rw [if_pos hd] at h
      simp only [Prod.mk.injEq, true_and] at h
      rw [← h]
      exact ⟨rfl, rfl, rfl, rfl⟩
    · rw [if_neg hd] at h
      rcases load_layout_cases (Laplacian.mk false (toUnsigned N).toNat s.layout_ s.mask_) text
        with hl | hl | ⟨L, hl, _⟩
      · rw [hl] at h
        simp at h
      · rw [hl] at h
        simp only [Prod.mk.injEq, true_and] at h
        rw [← h]
        exact ⟨rfl, rfl, rfl, rfl⟩
      · rw [hl] at h
        simp only at h
        cases hc : create_mask (Laplacian.mk false (toUnsigned N).toNat L s.mask_) with
        | mk x s3 =>
          rw [hc] at h
          cases x with
          | error e => simp at h
          | ok b =>
            cases b with
            | false => exact absurd hc (create_mask_ne_false _ _)
            | true => simp at h
  · intro h
    unfold configure
    rcases h with h | ⟨t, ht, h⟩
    · rw [h]
    · rw [ht]
      simp only
      by_cases hd : has_duplicate t = true
      · rw [if_pos hd]
      · rw [if_neg hd]
        rcases h with h | h
        · exact absurd h hd
        · rcases load_layout_cases s t with hl | hl | ⟨L, hl, _⟩
          · rw [hl] at h; simp at h
          · rw [hl]
          · rw [hl] at h; simp at h

/-- C15, amended, on the filter that `set_layout` has made ready for the layout `1 2 3`:
the ragged text makes `set_layout` return `false` and `configure` return `false`; the first
call clears the flag, the second one leaves the object as it was. -/
theorem failed_configuration_state_witness :
    (set_layout_string readyFilter raggedText 3 =
        (.ok false, (set_layout_string readyFilter raggedText 3).2) ∧
      (set_layout_string readyFilter raggedText 3).2.mask_ = readyFilter.mask_ ∧
      (set_layout_string readyFilter raggedText 3).2.is_mask_set_ = false) ∧
    (load_layout readyFilter raggedText).1 = .ok false ∧
    configure readyFilter (some raggedText) none = (.ok false, readyFilter) := by
  have hl : (load_layout readyFilter raggedText).1 = .ok false := rfl
  have hs : set_layout_string readyFilter raggedText 3 =
      (.ok false, (set_layout_string readyFilter raggedText 3).2) := rfl
  have h := failed_configuration_state readyFilter
    (set_layout_string readyFilter raggedText 3).2 raggedText 3 (some raggedText) none
  exact ⟨⟨hs, (h.1 hs).1, (h.1 hs).2.2.1⟩, hl, h.2 (Or.inr ⟨_, rfl, Or.inr hl⟩)⟩

/-- C16: with the valid text `1 2 3; 4 5 6; 7 8 9` and the parameter `nchannels = 9`,
`configure` on a new filter builds the `9 x 9` mask, stores the channel count and sets the
flag, and returns `false`: `retcod` starts as `false` and becomes `true` only where
`nchannels` is missing.  The object is then the one that `set_layout` leaves for the same
text and channel count, where `set_layout` returns `true`; without `nchannels` `configure`
returns `true` for this text.  The result `false` is also the one for the ragged text, for
which nothing is built: on a filter whose flag is cleared the valid text sets the flag, the
ragged text leaves the object as it was, and both calls return `false`. -/
theorem configure_explicit_nchannels_false :
    has_duplicate validText = false ∧
      (load_layout (construct 0) validText).1 = .ok true ∧
      (configure (construct 0) (some validText) (some 9)).1 = .ok false ∧
      (configure (construct 0) (some validText) (some 9)).2.is_mask_set_ = true ∧
      (configure (construct 0) (some validText) (some 9)).2.nchannels_ = 9 ∧
      (configure (construct 0) (some validText) (some 9)).2.mask_.rows = 9 ∧
      (configure (construct 0) (some validText) (some 9)).2.mask_.cols = 9 ∧
      (set_layout_string (construct 0) validText 9).1 = .ok true ∧
      (configure (construct 0) (some validText) (some 9)).2 =
        (set_layout_string (construct 0) validText 9).2 ∧
      (configure (construct 0) (some validText) none).1 = .ok true ∧
      (configure (construct 0) (some raggedText) (some 9)).1 = .ok false ∧
      clearedFilter.is_mask_set_ = false ∧
      (configure clearedFilter (some validText) (some 9)).1 = .ok false ∧
      (configure clearedFilter (some validText) (some 9)).2.is_mask_set_ = true ∧
      configure clearedFilter (some raggedText) (some 9) = (.ok false, clearedFilter) := by
  refine ⟨by decide, rfl, rfl, rfl, rfl, rfl, rfl, rfl, rfl, rfl, rfl, rfl, rfl, rfl, rfl⟩

/-- The result of `configure`: whenever `configure` returns, it returns `true` exactly when
the layout text has no duplicate, `load_layout` has returned `true` and `nchannels` is not
supplied (it is then derived from the layout); with `nchannels` supplied and such a text it
returns `false` although it has built the mask for that channel count and set the flag. -/
theorem configure_result (s s2 : Laplacian) (layoutParam : Option (List Char))
    (nchannelsParam : Option Nat) (b : Bool)
    (h : configure s layoutParam nchannelsParam = (.ok b, s2)) :
    (b = true ↔ nchannelsParam = none ∧ ∃ t, layoutParam = some t ∧
        has_duplicate t = false ∧ (load_layout s t).1 = .ok true) ∧
      (b = true → s2.is_mask_set_ = true) ∧
      (∀ n t, nchannelsParam = some n → layoutParam = some t → has_duplicate t = false →
        (load_layout s t).1 = .ok true →
        b = false ∧ s2.is_mask_set_ = true ∧ s2.nchannels_ = n ∧ s2.mask_.rows = n ∧
          s2.mask_.cols = n) := by
  unfold configure at h
  cases layoutParam with
  | none =>
    simp only [Prod.mk.injEq, Except.ok.injEq] at h
    rw [← h.1]
    simp
  | some t =>
    simp only at h
    by_cases hd : has_duplicate t = true
    · rw [if_pos hd] at h
      simp only [Prod.mk.injEq, Except.ok.injEq] at h
      rw [← h.1]
      simp [hd]
    · rw [if_neg hd] at h
      have hd2 : has_duplicate t = false := by simpa using hd
      rcases load_layout_cases s t with hl | hl | ⟨L, hl, _⟩
      · rw [hl] at h; simp at h
      · rw [hl] at h
        simp only [Prod.mk.injEq, Except.ok.injEq] at h
        rw [← h.1]
        simp [hl]
      · rw [hl] at h
        simp only at h
        cases nchannelsParam with
        | some n =>
          simp only at h
          cases hc : create_mask (Laplacian.mk s.is_mask_set_ n L s.mask_) with
          | mk x s3 =>
            rw [hc] at h
            cases x with
            | error e => simp at h
            | ok b2 =>
              obtain ⟨hb2, F, hs3⟩ := create_mask_returns _ _ _ hc
              subst hb2
              simp only [Prod.mk.injEq, Except.ok.injEq] at h
              rw [← h.1, ← h.2, hs3]
              simp
        | none =>
          simp only at h
          cases hm : L.maxCoeff with
          | error e =>
            rw [show ({ s with layout_ := L } : Laplacian).layout_.maxCoeff = _ from hm] at h
            simp at h
          | ok m =>
            rw [show ({ s with layout_ := L } : Laplacian).layout_.maxCoeff = _ from hm] at h
            simp only at h
            cases hc : create_mask
                (Laplacian.mk s.is_mask_set_ (toUnsigned m).toNat L s.mask_) with
            | mk x s3 =>
              rw [hc] at h
              cases x with
              | error e => simp at h
              | ok b2 =>
                obtain ⟨hb2, F, hs3⟩ := create_mask_returns _ _ _ hc
                subst hb2
                simp only [Prod.mk.injEq, Except.ok.injEq] at h
                rw [← h.1, ← h.2]
                simp [hd2, hl]

/-- The result of `configure` on the valid text `1 2 3; 4 5 6; 7 8 9`: with `nchannels = 9`
the result is `false`, the flag is set and the mask is `9 x 9`. -/
theorem configure_result_witness :
    configure (construct 0) (some validText) (some 9) =
        (.ok false, (configure (construct 0) (some validText) (some 9)).2) ∧
      has_duplicate validText = false ∧
      (load_layout (construct 0) validText).1 = .ok true ∧
      (configure (construct 0) (some validText) (some 9)).2.is_mask_set_ = true ∧
      (configure (construct 0) (some validText) (some 9)).2.mask_.rows = 9 := by
  have h0 : configure (construct 0) (some validText) (some 9) =
      (.ok false, (configure (construct 0) (some validText) (some 9)).2) := rfl
  have hd : has_duplicate validText = false := by decide
  have hl : (load_layout (construct 0) validText).1 = .ok true := rfl
  have h := (configure_result (construct 0) _ (some validText) (some 9) false h0).2.2
    9 validText rfl rfl hd hl
  exact ⟨h0, hd, hl, h.2.1, h.2.2.2.1⟩

/-! ### The words of a text -/

theorem wordsAux_word (w : List Char) (cur rest : List Char)
    (hw : ∀ c ∈ w, isWordChar c = true) :
    wordsAux cur (w ++ rest) = wordsAux (cur ++ w) rest := by
  induction w generalizing cur with
  | nil => simp
  | cons c cs ih =>
    have hc := hw c (List.mem_cons_self _ _)
    rw [List.cons_append, wordsAux, if_pos hc,
      ih (cur ++ [c]) (fun x hx => hw x (List.mem_cons_of_mem _ hx))]
    simp

theorem wordsAux_nonword (cur : List Char) (c : Char) (rest : List Char)
    (hc : isWordChar c = false) :
    wordsAux cur (c :: rest) = (if cur = [] then [] else [cur]) ++ wordsOf rest := by
  rw [wordsAux, if_neg (by simp [hc])]
  split_ifs <;> rfl

theorem wordsOf_nonword (mid rest : List Char) (h : ∀ c ∈ mid, isWordChar c = false) :
    wordsOf (mid ++ rest) = wordsOf rest := by
  induction mid with
  | nil => rfl
  | cons c cs ih =>
    unfold wordsOf
    rw [List.cons_append, wordsAux_nonword [] c _ (h c (List.mem_cons_self _ _))]
    simpa using ih (fun x hx => h x (List.mem_cons_of_mem _ hx))

/-- A word that the end of the text or a character that is not a word character follows is
one of the words of the text. -/
theorem wordsOf_word (g rest : List Char) (hne : g ≠ [])
    (hg : ∀ c ∈ g, isWordChar c = true)
    (hrest : ∀ c, rest.head? = some c → isWordChar c = false) :
    wordsOf (g ++ rest) = g :: wordsOf rest := by
  unfold wordsOf
  rw [wordsAux_word g [] rest hg, List.nil_append]
  cases rest with
  | nil => simp [wordsAux, hne]
  | cons c r =>
    have hc := hrest c rfl
    rw [wordsAux_nonword g c r hc, wordsAux_nonword [] c r hc, if_neg hne]
    simp [wordsOf]

/-- The words of a text whose first part does not end inside a word. -/
theorem wordsAux_append (pre x cur : List Char) (hcur : pre = [] → cur = [])
    (hlast : ∀ c, pre.getLast? = some c → isWordChar c = false) :
    wordsAux cur (pre ++ x) = wordsAux cur pre ++ wordsOf x := by
  induction pre generalizing cur with
  | nil =>
    rw [hcur rfl]
    simp [wordsAux, wordsOf]
  | cons c pre2 ih =>
    have hlast2 : ∀ d, pre2.getLast? = some d → isWordChar d = false := by
      intro d hd
      apply hlast d
      cases pre2 with
      | nil => simp at hd
      | cons e r => simpa [List.getLast?_cons_cons] using hd
    by_cases hc : isWordChar c = true
    · have hne : pre2 ≠ [] := by
        intro e
        subst e
        have := hlast c (by simp)
        rw [this] at hc
        simp at hc
      rw [List.cons_append, wordsAux, if_pos hc, wordsAux, if_pos hc]
      exact ih (cur ++ [c]) (fun e => absurd e hne) hlast2
    · have hc2 : isWordChar c = false := by simpa using hc
      rw [List.cons_append, wordsAux_nonword cur c _ hc2, wordsAux_nonword cur c _ hc2]
      unfold wordsOf
      rw [ih [] (fun _ => rfl) hlast2, List.append_assoc]
      rfl

/-- A text in which a word is followed by characters that are not word characters and then
by the same word has this word twice in a row among its words. -/
theorem wordsOf_repeat (pre g mid post : List Char) (hne : g ≠ [])
    (hg : ∀ c ∈ g, isWordChar c = true) (hmid : mid ≠ [])
    (hmidc : ∀ c ∈ mid, isWordChar c = false)
    (hpre : ∀ c, pre.getLast? = some c → isWordChar c = false)
    (hpost : ∀ c, post.head? = some c → isWordChar c = false) :
    wordsOf (pre ++ (g ++ (mid ++ (g ++ post)))) = wordsOf pre ++ g :: g :: wordsOf post := by
  unfold wordsOf
  rw [wordsAux_append pre _ [] (fun _ => rfl) hpre]
  congr 1
  have h1 : ∀ c, (mid ++ (g ++ post)).head? = some c → isWordChar c = false := by
    intro c hc
    obtain ⟨m, ms, hm⟩ := List.exists_cons_of_ne_nil hmid
    rw [hm] at hc
    simp only [List.cons_append, List.head?_cons, Option.some.injEq] at hc
    rw [← hc]
    exact hmidc m (by rw [hm]; exact List.mem_cons_self _ _)
  rw [wordsOf_word g _ hne hg h1, wordsOf_nonword mid _ hmidc, wordsOf_word g post hne hg hpost]
  rfl

/-! ### A match of the regex of `has_duplicate` -/

theorem wordBoundary_append (a b : List Char) :
    wordBoundary (a ++ b) a.length =
      (a.getLast?.any isWordChar != b.head?.any isWordChar) := by
  unfold wordBoundary
  have hr : (a ++ b).get? a.length = b.head? := by
    rw [List.get?_eq_getElem?, List.getElem?_append_right (le_refl _)]
    cases b <;> simp
  rw [hr]
  rcases List.eq_nil_or_concat a with rfl | ⟨a2, x, rfl⟩
  · simp
  · rw [List.concat_eq_append]
    have hl : ((a2 ++ [x]) ++ b).get? ((a2 ++ [x]).length - 1) = some x := by
      have e : (a2 ++ [x]).length - 1 = a2.length := by simp
      rw [e, List.get?_eq_getElem?, List.append_assoc,
        List.getElem?_append_right (le_refl _)]
      simp
    rw [hl]
    simp

theorem isDigit19_word {c : Char} (h : isDigit19 c = true) : isWordChar c = true := by
  unfold isDigit19 at h
  unfold isWordChar
  simp only [Bool.and_eq_true, decide_eq_true_eq] at h
  simp only [Bool.or_eq_true, Bool.and_eq_true, decide_eq_true_eq]
  omega

theorem isDigit_word {c : Char} (h : isDigit c = true) : isWordChar c = true := by
  unfold isDigit at h
  unfold isWordChar
  simp only [Bool.and_eq_true, decide_eq_true_eq] at h
  simp only [Bool.or_eq_true, Bool.and_eq_true, decide_eq_true_eq]
  omega

theorem isSeparator_nonword {c : Char} (h : isSeparator c = true) :
    isWordChar c = false := by
  unfold isSeparator at h
  rcases Bool.or_eq_true _ _ |>.mp h with h1 | h1
  · unfold isSpace at h1
    unfold isWordChar
    simp only [Bool.or_eq_true, Bool.and_eq_true, decide_eq_true_eq] at h1
    simp only [Bool.or_eq_false_iff, Bool.and_eq_false_imp, decide_eq_true_eq,
      decide_eq_false_iff_not]
    omega
  · have : c = ';' := by simpa using h1
    rw [this]
    decide

/-- A match of the regex splits the text into what precedes it, the group, the characters
of `\W+`, the group again and what follows, with a word boundary on each side. -/
theorem matchAt_split (s : List Char) (p len : Nat) (h : matchAt s p len = true) :
    ∃ pre g mid post, s = pre ++ (g ++ (mid ++ (g ++ post))) ∧ g ≠ [] ∧
      (∀ c ∈ g, isDigit19 c = true) ∧ mid ≠ [] ∧ (∀ c ∈ mid, isWordChar c = false) ∧
      (∀ c, pre.getLast? = some c → isWordChar c = false) ∧
      (∀ c, post.head? = some c → isWordChar c = false) := by
  unfold matchAt at h
  simp only [Bool.and_eq_true, decide_eq_true_eq, List.any_eq_true, List.mem_range] at h
  obtain ⟨⟨⟨⟨hb1, hlen1⟩, hlen⟩, hg⟩, w, _, hw⟩ := h
  unfold matchRepeat at hw
  simp only [Bool.and_eq_true, decide_eq_true_eq] at hw
  obtain ⟨⟨⟨⟨hw1, hwlen⟩, hmid⟩, hrep⟩, hb2⟩ := hw
  rw [hlen] at hrep hb2
  have hgall : ∀ c ∈ (s.drop p).take len, isDigit19 c = true := by
    simpa [List.all_eq_true] using hg
  have hmidall : ∀ c ∈ (s.drop (p + len)).take w, isWordChar c = false := by
    intro c hc
    have := (List.all_eq_true.mp hmid) c hc
    simpa using this
  have hgne : (s.drop p).take len ≠ [] := by
    intro e
    rw [e] at hlen
    simp at hlen
    omega
  have hmidne : (s.drop (p + len)).take w ≠ [] := by
    intro e
    rw [e] at hwlen
    simp at hwlen
    omega
  have hp : p ≤ s.length := by
    by_contra hcon
    apply hgne
    rw [List.drop_eq_nil_of_le (by omega)]
    exact List.take_nil
  -- the text in five pieces
  have e1 : s = s.take p ++ s.drop p := (List.take_append_drop p s).symm
  have dd : ∀ a b, List.drop a (List.drop b s) = List.drop (b + a) s := by
    intro a b
    rw [List.drop_drop]
  have e2 : s.drop p = (s.drop p).take len ++ s.drop (p + len) := by
    rw [← dd len p]
    exact (List.take_append_drop len (s.drop p)).symm
  have e3 : s.drop (p + len) = (s.drop (p + len)).take w ++ s.drop (p + len + w) := by
    rw [← dd w (p + len)]
    exact (List.take_append_drop w (s.drop (p + len))).symm
  have e4 : s.drop (p + len + w) =
      (s.drop (p + len + w)).take len ++ s.drop (p + len + w + len) := by
    rw [← dd len (p + len + w)]
    exact (List.take_append_drop len (s.drop (p + len + w))).symm
  have hs : s = s.take p ++ ((s.drop p).take len ++ ((s.drop (p + len)).take w ++
      ((s.drop p).take len ++ s.drop (p + len + w + len)))) := by
    conv_lhs => rw [e1, e2, e3, e4, hrep]
  have hplen : (s.take p).length = p := by simp [hp]
  refine ⟨s.take p, (s.drop p).take len, (s.drop (p + len)).take w,
    s.drop (p + len + w + len), hs, hgne, hgall, hmidne, hmidall, ?_, ?_⟩
  · -- the boundary in front of the group
    intro c hc
    have hb := wordBoundary_append (s.take p) (s.drop p)
    rw [List.take_append_drop, hplen, hb1, hc] at hb
    obtain ⟨d, ds, hd⟩ := List.exists_cons_of_ne_nil hgne
    have hdw : isWordChar d = true :=
      isDigit19_word (hgall d (by rw [hd]; exact List.mem_cons_self _ _))
    have hhead : (s.drop p).head? = some d := by
      rw [e2, hd]; rfl
    rw [hhead] at hb
    simp only [Option.any_some, hdw] at hb
    cases hcw : isWordChar c with
    | false => rfl
    | true => rw [hcw] at hb; simp at hb
  · -- the boundary behind the second group
    intro c hc
    have hb := wordBoundary_append (s.take p ++ ((s.drop p).take len ++
      ((s.drop (p + len)).take w ++ (s.drop p).take len))) (s.drop (p + len + w + len))
    have hl : (s.take p ++ ((s.drop p).take len ++
        ((s.drop (p + len)).take w ++ (s.drop p).take len))).length = p + len + w + len := by
      simp only [List.length_append, hplen, hlen, hwlen]
      omega
    have hs2 : (s.take p ++ ((s.drop p).take len ++
        ((s.drop (p + len)).take w ++ (s.drop p).take len))) ++ s.drop (p + len + w + len)
          = s := by
      conv_rhs => rw [hs]
      simp only [List.append_assoc]
    rw [hs2, hl, hb2, hc] at hb
    obtain ⟨g2, x, hx⟩ : ∃ g2 x, (s.drop p).take len = g2 ++ [x] := by
      rcases List.eq_nil_or_concat ((s.drop p).take len) with e | ⟨g2, x, e⟩
      · exact absurd e hgne
      · exact ⟨g2, x, by rw [e, List.concat_eq_append]⟩
    have hxw : isWordChar x = true :=
      isDigit19_word (hgall x (by rw [hx]; simp))
    have hlast : (s.take p ++ ((s.drop p).take len ++
        ((s.drop (p + len)).take w ++ (s.drop p).take len))).getLast? = some x := by
      rw [hx]
      simp only [← List.append_assoc]
      exact List.getLast?_concat _
    rw [hlast] at hb
    simp only [Option.any_some, hxw] at hb
    cases hcw : isWordChar c with
    | false => rfl
    | true => rw [hcw] at hb; simp at hb

/-! ### `has_duplicate` on a text without repeated channel -/

/-- The words of a text of separated unsigned tokens are the digits of its tokens. -/
theorem wordsOf_tokensText (toks : List (List Char × IntToken)) (trailing : List Char)
    (hwf : ∀ p ∈ toks, (∀ c ∈ p.1, isSeparator c = true) ∧ p.2.negative = false ∧
      p.2.digits ≠ [] ∧ ∀ c ∈ p.2.digits, isDigit c = true)
    (hsep2 : ∀ p ∈ toks.tail, p.1 ≠ [])
    (htrail : ∀ c ∈ trailing, isSeparator c = true) :
    wordsOf (tokensText toks ++ trailing) = toks.map fun p => p.2.digits := by
  induction toks with
  | nil =>
    have := wordsOf_nonword trailing [] (fun c hc => isSeparator_nonword (htrail c hc))
    simpa [tokensText, wordsOf, wordsAux] using this
  | cons p ps ih =>
    have hp := hwf p (List.mem_cons_self _ _)
    have hps := fun q hq => hwf q (List.mem_cons_of_mem _ hq)
    have hsep3 : ∀ q ∈ ps, q.1 ≠ [] := fun q hq => hsep2 q (by simpa using hq)
    have hrest : ∀ c, (tokensText ps ++ trailing).head? = some c → isWordChar c = false := by
      intro c hc
      apply isSeparator_nonword
      cases ps with
      | nil =>
        simp only [tokensText, List.nil_append] at hc
        exact htrail c (List.mem_of_mem_head? hc)
      | cons q qs =>
        obtain ⟨w, ws, hw⟩ := List.exists_cons_of_ne_nil (hsep3 q (List.mem_cons_self _ _))
        simp only [tokensText, hw, List.cons_append, List.head?_cons,
          Option.some.injEq] at hc
        rw [← hc]
        exact (hps q (List.mem_cons_self _ _)).1 w (by rw [hw]; exact List.mem_cons_self _ _)
    have htext : p.2.text = p.2.digits := by
      simp [IntToken.text, hp.2.1]
    have e : tokensText (p :: ps) ++ trailing =
        p.1 ++ (p.2.digits ++ (tokensText ps ++ trailing)) := by
      simp [tokensText, htext]
    rw [e, wordsOf_nonword p.1 _ (fun c hc => isSeparator_nonword (hp.1 c hc)),
      wordsOf_word p.2.digits _ hp.2.2.1 (fun c hc => isDigit_word (hp.2.2.2 c hc)) hrest,
      ih hps (fun q hq => hsep3 q (List.mem_of_mem_tail hq)), List.map_cons]

theorem digitsValue_foldl_pos (g : List Char) (acc : Int) (hacc : 0 ≤ acc) (hne : g ≠ [])
    (hg : ∀ c ∈ g, isDigit19 c = true) :
    0 < g.foldl (fun acc c => 10 * acc + ((c.toNat : Int) - 48)) acc := by
  induction g generalizing acc with
  | nil => exact absurd rfl hne
  | cons c cs ih =>
    have hc := hg c (List.mem_cons_self _ _)
    unfold isDigit19 at hc
    simp only [Bool.and_eq_true, decide_eq_true_eq] at hc
    have hstep : 0 < 10 * acc + ((c.toNat : Int) - 48) := by omega
    rw [List.foldl_cons]
    by_cases hcs : cs = []
    · subst hcs
      simpa using hstep
    · exact ih _ (le_of_lt hstep) hcs (fun x hx => hg x (List.mem_cons_of_mem _ hx))

/-- A number written with the digits `1` to `9` is positive. -/
theorem digitsValue_pos (g : List Char) (hne : g ≠ []) (hg : ∀ c ∈ g, isDigit19 c = true) :
    0 < digitsValue g :=
  digitsValue_foldl_pos g 0 (le_refl _) hne hg

/-- In a text of separated unsigned tokens without repeated positive value the regex of
`has_duplicate` has no match. -/
theorem matchAt_false (toks : List (List Char × IntToken)) (trailing : List Char)
    (hsep : SeparatedTokens toks trailing) (hno : NoRepeatedChannel toks) (p len : Nat) :
    matchAt (tokensText toks ++ trailing) p len = false := by
  cases hm : matchAt (tokensText toks ++ trailing) p len with
  | false => rfl
  | true =>
    exfalso
    obtain ⟨pre, g, mid, post, hs, hgne, hg, hmidne, hmid, hpre, hpost⟩ :=
      matchAt_split _ p len hm
    have hwords := wordsOf_tokensText toks trailing hsep.1 hsep.2.1 hsep.2.2
    rw [hs, wordsOf_repeat pre g mid post hgne (fun c hc => isDigit19_word (hg c hc))
      hmidne hmid hpre hpost] at hwords
    -- the digits of the tokens are pairwise different or of value `0`
    have hpw : (toks.map fun q => q.2.digits).Pairwise
        (fun x y => x = y → digitsValue x = 0) := by
      rw [List.pairwise_map]
      refine List.Pairwise.imp_of_mem ?_ hno
      intro a b ha hb hab hd
      have h1 : a.2.value = digitsValue a.2.digits := by
        simp [IntToken.value, (hsep.1 a ha).2.1]
      have h2 : b.2.value = digitsValue b.2.digits := by
        simp [IntToken.value, (hsep.1 b hb).2.1]
      rw [← h1]
      apply hab
      rw [h1, h2, hd]
    rw [← hwords] at hpw
    have h2 := (List.pairwise_append.mp hpw).2.1
    have h3 := (List.pairwise_cons.mp h2).1 g (List.mem_cons_self _ _) rfl
    have := digitsValue_pos g hgne hg
    omega

/-- C14: for every text made of unsigned decimal integer tokens separated (and possibly
surrounded) by white space and `;` in which no positive value occurs more than once,
`has_duplicate` returns `false`. -/
theorem has_duplicate_false (toks : List (List Char × IntToken)) (trailing : List Char)
    (hsep : SeparatedTokens toks trailing) (hno : NoRepeatedChannel toks) :
    has_duplicate (tokensText toks ++ trailing) = false := by
  unfold has_duplicate
  rw [List.any_eq_false]
  intro p _
  rw [Bool.not_eq_true, List.any_eq_false]
  intro len _
  rw [Bool.not_eq_true]
  exact matchAt_false toks trailing hsep hno p len

theorem raggedText_tokens :
    tokensText (scanTokens 8 raggedText).1 ++ (scanTokens 8 raggedText).2 = raggedText := by
  decide

set_option maxRecDepth 100000 in
set_option maxHeartbeats 4000000 in
theorem configureText_tokens :
    tokensText (scanTokens 49 configureText).1 ++ (scanTokens 49 configureText).2 =
      configureText := by
  decide

set_option maxRecDepth 100000 in
set_option maxHeartbeats 4000000 in
theorem configureText_separated :
    SeparatedTokens (scanTokens 49 configureText).1 (scanTokens 49 configureText).2 := by
  decide

set_option maxRecDepth 100000 in
set_option maxHeartbeats 4000000 in
theorem configureText_noRepeat : NoRepeatedChannel (scanTokens 49 configureText).1 := by
  decide

/-- C14, on the ragged text `1 2 3; 4 5; 7 8 9` and on the text of the layout of the test
`Configure`. -/
theorem has_duplicate_false_witness :
    (SeparatedTokens (scanTokens 8 raggedText).1 (scanTokens 8 raggedText).2 ∧
      NoRepeatedChannel (scanTokens 8 raggedText).1 ∧
      tokensText (scanTokens 8 raggedText).1 ++ (scanTokens 8 raggedText).2 = raggedText ∧
      has_duplicate raggedText = false) ∧
    (SeparatedTokens (scanTokens 49 configureText).1 (scanTokens 49 configureText).2 ∧
      NoRepeatedChannel (scanTokens 49 configureText).1 ∧
      has_duplicate configureText = false) := by
  have h1 : SeparatedTokens (scanTokens 8 raggedText).1 (scanTokens 8 raggedText).2 := by
    decide
  have h2 : NoRepeatedChannel (scanTokens 8 raggedText).1 := by decide
  have h3 := has_duplicate_false _ _ h1 h2
  rw [raggedText_tokens] at h3
  have h4 := has_duplicate_false _ _ configureText_separated configureText_noRepeat
  rw [configureText_tokens] at h4
  exact ⟨⟨h1, h2, raggedText_tokens, h3⟩, configureText_separated, configureText_noRepeat, h4⟩

/-- The text of the layout of the test `Configure` passes the duplicate check. -/
theorem configureText_no_duplicate : has_duplicate configureText = false := by
  unfold has_duplicate
  rw [List.any_eq_false]
  intro p _
  rw [Bool.not_eq_true, List.any_eq_false]
  intro len _
  rw [Bool.not_eq_true]
  have := matchAt_false _ _ configureText_separated configureText_noRepeat p len
  rw [configureText_tokens] at this
  exact this

/-! ### `configure` without the parameter `nchannels` -/

theorem foldl_max_spec (l : List Int) (a : Int) :
    a ≤ l.foldl max a ∧ (∀ x ∈ l, x ≤ l.foldl max a) ∧
      (l.foldl max a = a ∨ l.foldl max a ∈ l) := by
  induction l generalizing a with
  | nil => simp
  | cons y ys ih =>
    obtain ⟨h1, h2, h3⟩ := ih (max a y)
    rw [List.foldl_cons]
    refine ⟨le_trans (le_max_left a y) h1, ?_, ?_⟩
    · intro x hx
      rcases List.mem_cons.mp hx with rfl | hx
      · exact le_trans (le_max_right a x) h1
      · exact h2 x hx
    · rcases h3 with h3 | h3
      · rcases max_choice a y with hm | hm
        · left; rw [h3, hm]
        · right; rw [h3, hm]; exact List.mem_cons_self _ _
      · right; exact List.mem_cons_of_mem _ h3

theorem mem_toLists_flatten (L : DynamicMatrix Int) (x : Int) :
    x ∈ L.toLists.flatten ↔ ∃ i j, i < L.rows ∧ j < L.cols ∧ L.coeff i j = x := by
  unfold DynamicMatrix.toLists
  simp only [List.mem_flatten, List.mem_map, List.mem_range]
  constructor
  · rintro ⟨l, ⟨i, hi, rfl⟩, hx⟩
    obtain ⟨j, hj, rfl⟩ := List.mem_map.mp hx
    exact ⟨i, j, hi, List.mem_range.mp hj, rfl⟩
  · rintro ⟨i, j, hi, hj, rfl⟩
    exact ⟨_, ⟨i, hi, rfl⟩, List.mem_map.mpr ⟨j, List.mem_range.mpr hj, rfl⟩⟩

/-- `maxCoeff` of a matrix with coefficients is its largest coefficient. -/
theorem maxCoeff_spec (L : DynamicMatrix Int) (hr : 0 < L.rows) (hc : 0 < L.cols) :
    ∃ m, L.maxCoeff = .ok m ∧ (∀ i j, i < L.rows → j < L.cols → L.coeff i j ≤ m) ∧
      ∃ i j, i < L.rows ∧ j < L.cols ∧ L.coeff i j = m := by
  obtain ⟨h1, h2, h3⟩ := foldl_max_spec L.toLists.flatten (L.coeff 0 0)
  refine ⟨L.toLists.flatten.foldl max (L.coeff 0 0), ?_, ?_, ?_⟩
  · unfold DynamicMatrix.maxCoeff
    rw [if_neg (by omega)]
  · intro i j hi hj
    exact h2 _ ((mem_toLists_flatten L _).mpr ⟨i, j, hi, hj, rfl⟩)
  · rcases h3 with h3 | h3
    · exact ⟨0, 0, hr, hc, h3.symm⟩
    · exact (mem_toLists_flatten L _).mp h3

/-- C17: for a text that passes the duplicate check and that `load_layout` reads as a grid
with at least one column whose entries are `0` or positive, `configure` without the
parameter `nchannels` returns `true`; the channel count `N` it stores is the largest entry
of the grid, the mask it stores is the `N x N` mask that `create_mask` builds from that
grid, and the flag is set. -/
theorem configure_derives_nchannels (s s1 : Laplacian) (text : List Char)
    (hd : has_duplicate text = false) (hl : load_layout s text = (.ok true, s1))
    (hcols : 0 < s1.layout_.cols)
    (hpos : ∀ i j, i < s1.layout_.rows → j < s1.layout_.cols → 0 ≤ s1.layout_.coeff i j) :
    ∃ (N : Nat) (s2 : Laplacian),
      (∀ i j, i < s1.layout_.rows → j < s1.layout_.cols → s1.layout_.coeff i j ≤ (N : Int)) ∧
      (∃ i j, i < s1.layout_.rows ∧ j < s1.layout_.cols ∧ s1.layout_.coeff i j = (N : Int)) ∧
      create_mask { s1 with nchannels_ := N } = (.ok true, s2) ∧
      configure s (some text) none = (.ok true, { s2 with is_mask_set_ := true }) ∧
      s2.nchannels_ = N ∧ s2.layout_ = s1.layout_ ∧ s2.mask_.rows = N ∧ s2.mask_.cols = N := by
  have hrows : 0 < s1.layout_.rows := by
    rcases load_layout_cases s text with h | h | ⟨L, h, hL⟩
    · rw [h] at hl; simp at hl
    · rw [h] at hl; simp at hl
    · rw [h] at hl
      simp only [Prod.mk.injEq, true_and] at hl
      rw [← hl]
      exact hL
  obtain ⟨m, hm, hmax, i0, j0, hi0, hj0, hatt⟩ := maxCoeff_spec s1.layout_ hrows hcols
  have hm0 : 0 ≤ m := by rw [← hatt]; exact hpos i0 j0 hi0 hj0
  have hN : ((toUnsigned m).toNat : Int) = m := by
    rw [toUnsigned_of_nonneg hm0]
    omega
  have hup : EntriesUpTo s1.layout_ (toUnsigned m).toNat := by
    intro i j hi hj
    rw [hN]
    exact ⟨hpos i j hi hj, hmax i j hi hj⟩
  obtain ⟨F, hF, _⟩ := create_mask_ok
    (Laplacian.mk s1.is_mask_set_ (toUnsigned m).toNat s1.layout_ s1.mask_)
    (fun ch r q _ _ hf => neighbours_upTo (N := (toUnsigned m).toNat)
      (s := Laplacian.mk s1.is_mask_set_ (toUnsigned m).toNat s1.layout_ s1.mask_)
      hup ch r q hf)
  refine ⟨(toUnsigned m).toNat, _, ?_, ?_, hF, ?_, rfl, rfl, rfl, rfl⟩
  · intro i j hi hj
    rw [hN]
    exact hmax i j hi hj
  · exact ⟨i0, j0, hi0, hj0, by rw [hN]; exact hatt⟩
  · unfold configure
    simp only [hd, Bool.false_eq_true, if_false, hl, hm]
    rw [hF]

set_option maxRecDepth 100000 in
set_option maxHeartbeats 4000000 in
/-- The layout that `load_layout` reads from the text of the test `Configure`: it returns
`true`, and the grid has seven rows, seven columns and entries from `0` to `32`. -/
theorem configureText_loaded :
    load_layout (construct 0) configureText =
        (.ok true, (load_layout (construct 0) configureText).2) ∧
      (load_layout (construct 0) configureText).2.layout_.rows = 7 ∧
      (load_layout (construct 0) configureText).2.layout_.cols = 7 ∧
      EntriesUpTo (load_layout (construct 0) configureText).2.layout_ 32 ∧
      (load_layout (construct 0) configureText).2.layout_.coeff 6 6 = 32 :=
  ⟨rfl, by decide, by decide, entriesUpTo_of_forall _ _ (by decide), by decide⟩

/-- C17, on the text of the layout of the test `Configure`: `configure` without the
parameter `nchannels` returns `true`, stores the channel count `32` and a `32 x 32` mask,
and sets the flag. -/
theorem configure_derives_nchannels_witness :
    has_duplicate configureText = false ∧
      load_layout (construct 0) configureText =
        (.ok true, (load_layout (construct 0) configureText).2) ∧
      0 < (load_layout (construct 0) configureText).2.layout_.cols ∧
      ∃ s3, configure (construct 0) (some configureText) none = (.ok true, s3) ∧
        s3.nchannels_ = 32 ∧ s3.is_mask_set_ = true ∧ s3.mask_.rows = 32 ∧
        s3.mask_.cols = 32 := by
  obtain ⟨hl, hrw, hc, hup, h32⟩ := configureText_loaded
  have hcols : 0 < (load_layout (construct 0) configureText).2.layout_.cols := by
    rw [hc]; decide
  obtain ⟨N, s2, hmax, ⟨i, j, hi, hj, hatt⟩, _, hconf, hn, _, hr, hcl⟩ :=
    configure_derives_nchannels (construct 0) _ configureText configureText_no_duplicate hl
      hcols (fun i j hi hj => (hup i j hi hj).1)
  have h1 : (32 : Int) ≤ N := by
    rw [← h32]
    exact hmax 6 6 (by rw [hrw]; decide) (by rw [hc]; decide)
  have h2 : (N : Int) ≤ 32 := by
    rw [← hatt]
    exact (hup i j hi hj).2
  have hN : N = 32 := by omega
  subst hN
  exact ⟨configureText_no_duplicate, hl, hcols, _, hconf, hn, rfl, hr, hcl⟩

/-! ### `find_channel` on a grid of `int` entries -/

/-- For an `int` cell and a channel that fits an `int`, the comparison in `unsigned int`
is the comparison of the values. -/
theorem toUnsigned_eq_iff {x : Int} {c : Nat} (hx : IsInt32 x)
    (hc : (c : Int) ≤ 2147483647) : toUnsigned x = (c : Int) ↔ x = (c : Int) := by
  constructor
  · intro h
    by_contra hne
    exact toUnsigned_ne_of_int32 hx hc hne h
  · intro h
    rw [h]
    exact toUnsigned_of_nonneg (by omega)

/-- C21: on every grid of `int` entries and for every channel `ch` (that fits an `int`),
`find_channel(ch)` returns `true` exactly when some cell of the grid holds `ch`, and the
cell `(row, col)` it then reports lies inside the grid and holds `ch`. -/
theorem find_channel_spec (s : Laplacian) (ch : Nat)
    (hch : (ch : Int) ≤ 2147483647)
    (hint : ∀ i j, i < s.layout_.rows → j < s.layout_.cols → IsInt32 (s.layout_.coeff i j)) :
    ((find_channel s ch).isSome = true ↔
        ∃ i j, i < s.layout_.rows ∧ j < s.layout_.cols ∧ s.layout_.coeff i j = (ch : Int)) ∧
      ∀ row col, find_channel s ch = some (row, col) →
        row < s.layout_.rows ∧ col < s.layout_.cols ∧ s.layout_.coeff row col = (ch : Int) := by
  have hrep : ∀ row col, find_channel s ch = some (row, col) →
      row < s.layout_.rows ∧ col < s.layout_.cols ∧
        s.layout_.coeff row col = (ch : Int) := by
    intro row col h
    obtain ⟨h1, h2, h3⟩ := find_channel_some h
    exact ⟨h1, h2, (toUnsigned_eq_iff (hint row col h1 h2) hch).mp h3⟩
  refine ⟨⟨?_, ?_⟩, hrep⟩
  · intro h
    obtain ⟨⟨row, col⟩, hf⟩ := Option.isSome_iff_exists.mp h
    exact ⟨row, col, hrep row col hf⟩
  · rintro ⟨i, j, hi, hj, hv⟩
    obtain ⟨r2, q2, h2⟩ := find_channel_isSome hi hj
      ((toUnsigned_eq_iff (hint i j hi hj) hch).mpr hv)
    rw [h2]
    rfl

/-- C21, on the layout `1 2 3; 4 5 6; 7 8 9`: channel `5` is found at `(1, 1)`, channel
`10` is not found. -/
theorem find_channel_spec_witness :
    ((5 : Nat) : Int) ≤ 2147483647 ∧ ((10 : Nat) : Int) ≤ 2147483647 ∧
      (∀ i j, i < layout3x3.rows → j < layout3x3.cols → IsInt32 (layout3x3.coeff i j)) ∧
      find_channel (Laplacian.mk true 3 layout3x3 DynamicMatrix.empty) 5 = some (1, 1) ∧
      layout3x3.coeff 1 1 = 5 ∧
      find_channel (Laplacian.mk true 3 layout3x3 DynamicMatrix.empty) 10 = none ∧
      ¬ ∃ i j, i < layout3x3.rows ∧ j < layout3x3.cols ∧
        layout3x3.coeff i j = ((10 : Nat) : Int) := by
  have hint : ∀ i j, i < layout3x3.rows → j < layout3x3.cols →
      IsInt32 (layout3x3.coeff i j) := by
    intro i j hi hj
    have := layout3x3_upTo i j hi hj
    unfold IsInt32
    omega
  have h5 : find_channel (Laplacian.mk true 3 layout3x3 DynamicMatrix.empty) 5 =
      some (1, 1) := by decide
  have h10 : find_channel (Laplacian.mk true 3 layout3x3 DynamicMatrix.empty) 10 = none := by
    decide
  have a5 := (find_channel_spec (Laplacian.mk true 3 layout3x3 DynamicMatrix.empty) 5
    (by decide) hint).2 1 1 h5
  have a10 := (find_channel_spec (Laplacian.mk true 3 layout3x3 DynamicMatrix.empty) 10
    (by decide) hint).1
  refine ⟨by decide, by decide, hint, h5, a5.2.2, h10, ?_⟩
  intro hex
  have := a10.mpr hex
  rw [h10] at this
  simp at this

/-- C22: the grid `1 2; 3 1` holds channel `1` in the cells `(0, 0)` and `(1, 1)`, of which
`(0, 0)` is the first in row-major order; `find_channel(1)` reports `(1, 1)`: its `break`
leaves the loop over the columns only, and the match of the second row overwrites the one
of the first row.  `set_layout` accepts this grid with three channels. -/
theorem find_channel_reports_last_row :
    layoutTwice.coeff 0 0 = 1 ∧ layoutTwice.coeff 1 1 = 1 ∧
      find_channel_row (Laplacian.mk true 3 layoutTwice DynamicMatrix.empty) 1 0 = some 0 ∧
      find_channel_row (Laplacian.mk true 3 layoutTwice DynamicMatrix.empty) 1 1 = some 1 ∧
      find_channel (Laplacian.mk true 3 layoutTwice DynamicMatrix.empty) 1 = some (1, 1) ∧
      (set_layout (construct 0) layoutTwice 3).1 = .ok true ∧
      find_channel (set_layout (construct 0) layoutTwice 3).2 1 = some (1, 1) := by
  refine ⟨by decide, by decide, by decide, by decide, by decide, rfl, by decide⟩

/-! ### The column of an isolated channel -/

/-- C23: for every layout of `int` entries and every channel `c` of `1..N` that is the
entry of a cell, the neighbour list being empty wherever `c` is the entry: whenever
`set_layout(layout, N)` returns, column `c-1` of the mask has `1` in row `c-1` and `0` in
every other row, and for every sample matrix `inp` with `N` columns `apply(inp)` returns a
matrix whose column `c-1` is column `c-1` of `inp`. -/
theorem isolated_channel_column (s s2 : Laplacian) (layout : DynamicMatrix Int)
    (N c : Nat) (b : Bool) (inp : DynamicMatrix ℚ)
    (hN : (N : Int) ≤ 2147483647)
    (hint : ∀ i j, i < layout.rows → j < layout.cols → IsInt32 (layout.coeff i j))
    (hc1 : 1 ≤ c) (hc2 : c ≤ N)
    (hpres : ∃ r q, r < layout.rows ∧ q < layout.cols ∧ layout.coeff r q = (c : Int))
    (hiso : ∀ r q, r < layout.rows → q < layout.cols → layout.coeff r q = (c : Int) →
      get_neighbours s2 r q = .ok [])
    (hset : set_layout s layout (N : Int) = (.ok b, s2)) :
    s2.mask_.rows = N ∧ s2.mask_.cols = N ∧
    s2.mask_.coeff (c - 1) (c - 1) = 1 ∧
    (∀ i, i < N → i ≠ c - 1 → s2.mask_.coeff i (c - 1) = 0) ∧
    (inp.cols = N →
      ∃ out, apply s2 inp = (.ok out, s2) ∧ out.rows = inp.rows ∧ out.cols = N ∧
        ∀ t, t < inp.rows → out.coeff t (c - 1) = inp.coeff t (c - 1)) := by
  obtain ⟨F, _, hs2, hcoef⟩ := set_layout_returns s s2 layout N b hset
  subst hs2
  obtain ⟨r0, q0, hr0, hq0, hv0⟩ := hpres
  obtain ⟨r, q, hf⟩ := find_channel_isSome (s := Laplacian.mk false N layout s.mask_)
    hr0 hq0 ((toUnsigned_eq_iff (hint r0 q0 hr0 hq0) (by omega)).mpr hv0)
  obtain ⟨hr, hq, hv⟩ := find_channel_some hf
  have hv2 : layout.coeff r q = (c : Int) :=
    (toUnsigned_eq_iff (hint r q hr hq) (by omega)).mp hv
  have hK : get_neighbours (Laplacian.mk false N layout s.mask_) r q = .ok [] :=
    (get_neighbours_congr rfl r q).trans (hiso r q hr hq hv2)
  have e1 : c - 1 + 1 = c := by omega
  have hcol : ∀ i, F i (c - 1) = colWrite c [] (fun _ _ => 0) i (c - 1) := by
    intro i
    rw [hcoef i (c - 1) (by omega), e1, stepCoeff_found hf hK]
  refine ⟨rfl, rfl, ?_, ?_, ?_⟩
  · show F (c - 1) (c - 1) = 1
    rw [hcol]
    simp [colWrite, e1]
  · intro i _ hi
    show F i (c - 1) = 0
    rw [hcol]
    simp only [colWrite, if_pos e1, List.not_mem_nil, if_false]
    rw [if_neg (by omega)]
  · intro hin
    refine ⟨{ rows := inp.rows, cols := N,
              coeff := fun i j => ∑ k in Finset.range inp.cols, inp.coeff i k * F k j },
            ?_, rfl, rfl, ?_⟩
    · simp [apply, DynamicMatrix.mul, hin]
    · intro t _
      show ∑ k in Finset.range inp.cols, inp.coeff t k * F k (c - 1) = inp.coeff t (c - 1)
      rw [hin]
      have hrw : ∀ k ∈ Finset.range N, inp.coeff t k * F k (c - 1) =
          inp.coeff t k * colWrite c [] (fun _ _ => 0) k (c - 1) := by
        intro k _
        rw [hcol]
      rw [Finset.sum_congr rfl hrw,
        sum_colWrite N (fun k => inp.coeff t k) c [] ⟨hc1, hc2⟩ List.nodup_nil
          (List.not_mem_nil _) (fun k hk => absurd hk (List.not_mem_nil _))]
      simp

/-- C23, on the layout `1 0; 0 3` with three channels and the samples of the tests:
channel `1` has no neighbour, and the first column of the result is the first column
`1 4 7` of the samples. -/
theorem isolated_channel_column_witness :
    ((3 : Nat) : Int) ≤ 2147483647 ∧
      (∀ i j, i < layoutGap.rows → j < layoutGap.cols → IsInt32 (layoutGap.coeff i j)) ∧
      (∃ r q, r < layoutGap.rows ∧ q < layoutGap.cols ∧
        layoutGap.coeff r q = ((1 : Nat) : Int)) ∧
      ∃ s2, set_layout (construct 0) layoutGap ((3 : Nat) : Int) = (.ok true, s2) ∧
        (∀ r q, r < layoutGap.rows → q < layoutGap.cols →
          layoutGap.coeff r q = ((1 : Nat) : Int) → get_neighbours s2 r q = .ok []) ∧
        s2.mask_.coeff (1 - 1) (1 - 1) = 1 ∧
        ∃ out, apply s2 samples3x3 = (.ok out, s2) ∧
          out.coeff 0 0 = 1 ∧ out.coeff 1 0 = 4 ∧ out.coeff 2 0 = 7 := by
  have hint : ∀ i j, i < layoutGap.rows → j < layoutGap.cols →
      IsInt32 (layoutGap.coeff i j) := by
    intro i j hi hj
    have hi1 : i < 2 := hi
    have hj1 : j < 2 := hj
    unfold IsInt32
    interval_cases i <;> interval_cases j <;> decide
  obtain ⟨s2, hset⟩ := set_layout_ok_of_upTo (construct 0) layoutGap 3
    (entriesUpTo_of_forall _ _ (by decide))
  obtain ⟨F, _, hs2, _⟩ := set_layout_returns (construct 0) s2 layoutGap 3 true hset
  have hlay : s2.layout_ = layoutGap := by rw [hs2]
  have hiso : ∀ r q, r < layoutGap.rows → q < layoutGap.cols →
      layoutGap.coeff r q = ((1 : Nat) : Int) → get_neighbours s2 r q = .ok [] := by
    intro r q hr hq hv
    have hr1 : r < 2 := hr
    have hq1 : q < 2 := hq
    rw [get_neighbours_congr (t := Laplacian.mk true 3 layoutGap DynamicMatrix.empty) hlay]
    interval_cases r <;> interval_cases q
    · rfl
    · exact absurd hv (by decide)
    · exact absurd hv (by decide)
    · exact absurd hv (by decide)
  have hpres : ∃ r q, r < layoutGap.rows ∧ q < layoutGap.cols ∧
      layoutGap.coeff r q = ((1 : Nat) : Int) := ⟨0, 0, by decide, by decide, by decide⟩
  have h := isolated_channel_column (construct 0) s2 layoutGap 3 1 true samples3x3
    (by decide) hint (by decide) (by decide) hpres hiso hset
  obtain ⟨out, ho, _, _, hcol⟩ := h.2.2.2.2 rfl
  refine ⟨by decide, hint, hpres, s2, hset, hiso, h.2.2.1, out, ho, ?_, ?_, ?_⟩
  · rw [show (0 : Nat) = 1 - 1 from rfl, hcol 0 (by decide)]
    norm_num [samples3x3, DynamicMatrix.ofLists]
  · rw [show out.coeff 1 0 = out.coeff 1 (1 - 1) from rfl, hcol 1 (by decide)]
    norm_num [samples3x3, DynamicMatrix.ofLists]
  · rw [show out.coeff 2 0 = out.coeff 2 (1 - 1) from rfl, hcol 2 (by decide)]
    norm_num [samples3x3, DynamicMatrix.ofLists]

end Laplacian

end rosneuro
